import Mathlib

/-!
Verification of the batch ETL pipeline (ingest → transform → load → quality)
against its specification.  The Python sources are shallowly embedded:
DataFrame columns become record fields, pandas string methods become
character-list operations, and the SQLite warehouse becomes an explicit
state record with executable upsert functions.
-/

namespace ETL

/-! ### Python string primitives (pandas `.str` accessor / built-ins) -/

/-- Python whitespace class used by `str.strip` (ASCII subset). -/
def isPySpace (c : Char) : Bool :=
  c = ' ' || c = '\t' || c = '\n' || c = '\r' || c = '\x0b' || c = '\x0c'

/-- Python `str.strip()` / pandas `.str.strip()`: drop leading and trailing
whitespace. -/
def pyStrip (s : String) : String :=
  String.mk (((s.data.dropWhile isPySpace).reverse.dropWhile isPySpace).reverse)

/-- Python `str.lower()` / pandas `.str.lower()` (ASCII case fold). -/
def pyLower (s : String) : String :=
  String.mk (s.data.map Char.toLower)

/-- Pandas `.str.replace(old, new, regex=False)` for a single-character
pattern, which is how `transform` uses it (`"-"`→`"_"`, `" "`→`"_"`). -/
def pyReplaceChar (s : String) (old new : Char) : String :=
  String.mk (s.data.map (fun c => if c = old then new else c))

/-- Python `str(x)` applied to a cell that is either a real string or a
missing value; pandas renders the missing value as the string `na`
(`"nan"` for float NaN, `"<NA>"` for `pd.NA`). -/
def pyStr (o : Option String) (na : String) : String :=
  o.getD na

/-! ### transform.py: event-kind canonicalization -/

/-- `ALLOWED_EVENTS` from `transform.py`. -/
def ALLOWED_EVENTS : List String := ["pageview", "signup", "purchase"]

/-- The normalization chain applied to the `event` column in `transform`:
`.astype(str).str.strip().str.lower().str.replace("-","_").str.replace(" ","_")`. -/
def normEvent (s : String) : String :=
  pyReplaceChar (pyReplaceChar (pyLower (pyStrip s)) '-' '_') ' ' '_'

/-- The `.replace({...})` synonym map collapsing known variants of
`pageview` (from `transform.py`). -/
def synonymMap (s : String) : String :=
  if s = "page_view" then "pageview"
  else if s = "page view" then "pageview"
  else s

/-- Full canonicalization of the `event` column in `transform`. -/
def canonEvent (s : String) : String :=
  synonymMap (normEvent s)

/-! ### transform.py: data model

A row of the `events` DataFrame handed to `transform` (the good records
produced by ingest).  `event_id` and `user_id` cells may hold JSON `null`
(pandas missing values), hence `Option String`; `ts` is already a parsed
UTC timestamp (epoch seconds); `amount` is the numeric value obtained by
`pd.to_numeric(..., errors="coerce")` (`none` = missing/NaN). -/
structure EventIn where
  event_id : Option String
  ts : Int
  user_id : Option String
  event : String
  amount : Option ℚ
  page : Option String
deriving DecidableEq, Repr

/-- A row of the `users` DataFrame: `user_id` rendered as a string (the
source applies `.astype(str)` before the join), with optional attributes. -/
structure UserIn where
  user_id : String
  country : Option String
  signup_source : Option String
deriving DecidableEq, Repr

/-- A quarantined record produced by `transform` for a disallowed event
kind (all four traceability fields stringified, `None` when missing). -/
structure BadEvent where
  event_id : Option String
  ts : Option String
  user_id : Option String
  event : Option String
  reason : String
deriving DecidableEq, Repr

/-- The metrics dict returned by `transform`. -/
structure Metrics where
  dedup_removed : Nat
  null_user_id : Nat
  invalid_event_type : Nat
  rows_out : Nat
deriving DecidableEq, Repr

/-- An output row of `transform` (post enrichment and user join). -/
structure OutRow where
  event_id : Option String
  ts : Int
  user_id : Option String
  event : String
  amount : Option ℚ
  page : Option String
  event_date : String
  event_hour : Int
  country : Option String
  signup_source : Option String
deriving DecidableEq, Repr

/-! ### Timestamp rendering and calendar derivation -/

/-- Decimal digit character of a digit `d < 10`. -/
def digitChar10 (d : Nat) : Char :=
  match d with
  | 0 => '0' | 1 => '1' | 2 => '2' | 3 => '3' | 4 => '4'
  | 5 => '5' | 6 => '6' | 7 => '7' | 8 => '8' | _ => '9'

/-- Little-endian decimal digit characters of `n` (`fuel ≥ n` makes the
recursion total). -/
def natChars : Nat → Nat → List Char
  | 0, _ => []
  | fuel + 1, n =>
    if n = 0 then [] else digitChar10 (n % 10) :: natChars fuel (n / 10)

/-- Big-endian decimal rendering of a natural number. -/
def natStrChars (n : Nat) : List Char :=
  if n = 0 then ['0'] else (natChars n n).reverse

/-- Value of little-endian decimal digit characters (the left inverse of
the rendering, used to prove it injective). -/
def charsVal : List Char → Nat
  | [] => 0
  | c :: cs => (c.toNat - 48) + 10 * charsVal cs

/-- Model of Python `str(timestamp)`: an injective decimal rendering of
the epoch-second timestamp value. -/
def strOfTs (t : Int) : String :=
  match t with
  | .ofNat n => String.mk (natStrChars n)
  | .negSucc m => String.mk ('-' :: natStrChars (m + 1))

/-- Zero-padded decimal rendering of a nonnegative integer to `w` digits. -/
def padNum (w : Nat) (n : Int) : String :=
  let s := toString n
  if s.length < w then String.mk (List.replicate (w - s.length) '0') ++ s else s

/-- Civil date from days since the Unix epoch (proleptic Gregorian). -/
def civilFromDays (z : Int) : Int × Int × Int :=
  let z := z + 719468
  let era : Int := z.fdiv 146097
  let doe : Int := z - era * 146097
  let yoe : Int := (doe - doe.fdiv 1460 + doe.fdiv 36524 - doe.fdiv 146096).fdiv 365
  let y : Int := yoe + era * 400
  let doy : Int := doe - (365 * yoe + yoe.fdiv 4 - yoe.fdiv 100)
  let mp : Int := (5 * doy + 2).fdiv 153
  let d : Int := doy - (153 * mp + 2).fdiv 5 + 1
  let m : Int := mp + (if mp < 10 then 3 else -9)
  (y + (if m ≤ 2 then 1 else 0), m, d)

/-- `ts.dt.date.astype(str)`: the `YYYY-MM-DD` date of a UTC epoch-second
timestamp. -/
def dateOfTs (t : Int) : String :=
  let (y, m, d) := civilFromDays (t.fdiv 86400)
  padNum 4 y ++ "-" ++ padNum 2 m ++ "-" ++ padNum 2 d

/-- `ts.dt.hour`: the UTC hour (0–23) of an epoch-second timestamp. -/
def hourOfTs (t : Int) : Int :=
  (t.fdiv 3600).emod 24

/-! ### transform.py: pipeline stages -/

/-- Event-type normalization stage (`transform.py` lines 33–48). -/
def canonStage (events : List EventIn) : List EventIn :=
  events.map (fun e => { e with event := canonEvent e.event })

/-- `events["event"].isin(list(ALLOWED_EVENTS))` for one row. -/
def allowedB (e : EventIn) : Bool :=
  ALLOWED_EVENTS.contains e.event

/-- The rows flagged by `invalid_mask` (`transform.py` line 53). -/
def invalidRows (evs : List EventIn) : List EventIn :=
  evs.filter (fun e => !allowedB e)

/-- The rows kept by `events.loc[~invalid_mask]` (`transform.py` line 70). -/
def validRows (evs : List EventIn) : List EventIn :=
  evs.filter allowedB

/-- The quarantine entry built for an invalid-event row
(`transform.py` lines 58–67). -/
def mkBadInvalid (e : EventIn) : BadEvent :=
  { event_id := e.event_id.map id
    ts := some (strOfTs e.ts)
    user_id := e.user_id.map id
    event := some e.event
    reason := "invalid_event_type" }

/-- Comparison used by `sort_values("ts")`. -/
def tsLe (a b : EventIn) : Prop :=
  a.ts ≤ b.ts

instance : DecidableRel tsLe := fun a b => inferInstanceAs (Decidable (a.ts ≤ b.ts))

instance : IsTotal EventIn tsLe := ⟨fun a b => Int.le_total a.ts b.ts⟩

instance : IsTrans EventIn tsLe := ⟨fun _ _ _ h h' => le_trans h h'⟩

/-- `drop_duplicates("event_id", keep="last")`: a row survives iff no later
row carries the same `event_id`. -/
def keepLastBy : List EventIn → List EventIn
  | [] => []
  | x :: l => if (l.map EventIn.event_id).contains x.event_id
      then keepLastBy l else x :: keepLastBy l

/-- The deduplication step of `transform` (`transform.py` line 74):
`events.sort_values("ts").drop_duplicates("event_id", keep="last")`.
`sort_values` uses pandas' default `kind="quicksort"`, which is not
stable, so the relative order of rows tying on `ts` is unspecified; this
model fixes one concrete ts-ascending rearrangement (an insertion sort),
and no theorem below relies on the order of ties. -/
def dedupLatest (rs : List EventIn) : List EventIn :=
  keepLastBy (List.insertionSort tsLe rs)

/-- `user_id` normalization (`transform.py` lines 79–87):
`.astype(str).str.strip().replace({"": NA, "nan": NA, "None": NA, "<NA>": NA})`.
A missing cell stringifies to a null-ish token and hence returns to `none`. -/
def normUserId (o : Option String) : Option String :=
  match o with
  | none => none
  | some s =>
    let t := pyStrip s
    if t = "" || t = "nan" || t = "None" || t = "<NA>" then none else some t

/-- The typed/enriched row set fed into the user join: normalized
`user_id` plus derived columns. -/
def typedRows (rs : List EventIn) : List EventIn :=
  rs.map (fun e => { e with user_id := normUserId e.user_id })

/-- The `users` frame normalization before the join
(`transform.py` lines 99–101): `users["user_id"].astype(str).str.strip()`. -/
def normUsers (users : List UserIn) : List UserIn :=
  users.map (fun u => { u with user_id := pyStrip u.user_id })

/-- Build one output row from an event row and (optional) matched user
attributes, deriving `event_date` and `event_hour`. -/
def mkOut (e : EventIn) (country signup_source : Option String) : OutRow :=
  { event_id := e.event_id
    ts := e.ts
    user_id := e.user_id
    event := e.event
    amount := e.amount
    page := e.page
    event_date := dateOfTs e.ts
    event_hour := hourOfTs e.ts
    country := country
    signup_source := signup_source }

/-- One event row's contribution to the left join: one null-attribute row
when its key is missing or unmatched, else one row per matching user row. -/
def mergeRow (users : List UserIn) (e : EventIn) : List OutRow :=
  match e.user_id with
  | none => [mkOut e none none]
  | some u =>
    let ms := users.filter (fun w => w.user_id = u)
    if ms.isEmpty then [mkOut e none none]
    else ms.map (fun w => mkOut e w.country w.signup_source)

/-- `events.merge(users, on="user_id", how="left")`
(`transform.py` line 103). -/
def mergeLeft (rs : List EventIn) (users : List UserIn) : List OutRow :=
  rs.flatMap (mergeRow users)

/-- `transform(events, users)` from `transform.py`: returns
`(clean rows, bad records, metrics)`. -/
def transform (events : List EventIn) (users : List UserIn) :
    List OutRow × List BadEvent × Metrics :=
  if events = [] then
    ([], [], ⟨0, 0, 0, 0⟩)
  else
    let evs := canonStage events
    let invalid := invalidRows evs
    let bad := invalid.map mkBadInvalid
    let valid := validRows evs
    let deduped := dedupLatest valid
    let dedup_removed := valid.length - deduped.length
    let typed := typedRows deduped
    let out := mergeLeft typed (normUsers users)
    let null_user_id := (out.filter (fun o => o.user_id = none)).length
    (out, bad,
      { dedup_removed := dedup_removed
        null_user_id := null_user_id
        invalid_event_type := invalid.length
        rows_out := out.length })

/-! ### load.py: warehouse model

The SQLite database becomes an explicit state record.  Modelled from the
spec: the table shapes (schema file `sql/warehouse_star.sql` is not part
of the sources) — the event-type dimension maps a canonical event string
(unique) to a stable surrogate integer id, the date dimension is keyed on
the date string, `dim_users` is keyed on `user_id`, and `fact_events` is
keyed on `event_id`. -/

/-- A row of `fact_events` (column order of the INSERT in `load.py`). -/
structure FactRow where
  event_id : String
  ts : String
  user_id : Option String
  event_type_id : Nat
  amount : Option ℚ
  event_date : String
  event_hour : Option Int
deriving DecidableEq, Repr

/-- The warehouse state. -/
structure DB where
  dim_users : List (String × String × String)
  dim_event_types : List (String × Nat)
  next_event_type_id : Nat
  dim_dates : List (String × Int × Int × Int)
  fact_events : List FactRow
deriving DecidableEq, Repr

/-- A freshly initialized warehouse (surrogate ids start at 1). -/
def emptyDB : DB :=
  { dim_users := []
    dim_event_types := []
    next_event_type_id := 1
    dim_dates := []
    fact_events := [] }

/-- `pd.isna` applied to a cell that is a genuine Python `str` (never NA). -/
def pyIsnaStr (_ : String) : Bool :=
  false

/-- Python `sorted(set(xs))` for strings. -/
def sortedSetStr (xs : List String) : List String :=
  List.insertionSort (fun a b : String => a ≤ b) xs.dedup

/-- `INSERT OR IGNORE INTO dim_event_types(event) VALUES (?)` for one
event string: insert-if-absent with a fresh surrogate id. -/
def insertIgnoreET (db : DB) (e : String) : DB :=
  if e ∈ db.dim_event_types.map Prod.fst then db
  else
    { db with
      dim_event_types := db.dim_event_types ++ [(e, db.next_event_type_id)]
      next_event_type_id := db.next_event_type_id + 1 }

/-- `upsert_dim_event_types` from `load.py`. -/
def upsert_dim_event_types (db : DB) (cleaned : List OutRow) : DB :=
  if cleaned = [] then db
  else (sortedSetStr (cleaned.map OutRow.event)).foldl insertIgnoreET db

/-- Python `str.split(sep)` for a single-character separator. -/
def splitChar (c : Char) (s : String) : List String :=
  (s.data.foldr
    (fun ch acc =>
      if ch = c then [] :: acc
      else
        match acc with
        | p :: rest => (ch :: p) :: rest
        | [] => [[ch]])
    [[]]).map String.mk

/-- Digit accumulator for `parseIntPy`. -/
def parseNatChars (l : List Char) : Option Nat :=
  if l = [] then none
  else
    l.foldl
      (fun acc ch =>
        match acc with
        | none => none
        | some n => if ch.isDigit then some (n * 10 + (ch.toNat - 48)) else none)
      (some 0)

/-- Python `int(s)` on text: optional surrounding whitespace and sign,
then decimal digits; anything else raises (returns `none`). -/
def parseIntPy (s : String) : Option Int :=
  match (pyStrip s).data with
  | '-' :: rest => (parseNatChars rest).map (fun n => -(n : Int))
  | '+' :: rest => (parseNatChars rest).map (fun n => (n : Int))
  | t => (parseNatChars t).map (fun n => (n : Int))

/-- `int(y), int(m), int(day)` from `d.split("-")`, with any failure
skipping the row (`load.py` lines 88–93). -/
def parseDateRow (d : String) : Option (String × Int × Int × Int) :=
  match splitChar '-' d with
  | [y, m, dd] =>
    match parseIntPy y, parseIntPy m, parseIntPy dd with
    | some yi, some mi, some di => some (d, yi, mi, di)
    | _, _, _ => none
  | _ => none

/-- `INSERT OR IGNORE INTO dim_dates ...` for one parsed date row. -/
def insertIgnoreDate (T : List (String × Int × Int × Int))
    (r : String × Int × Int × Int) : List (String × Int × Int × Int) :=
  if r.1 ∈ T.map Prod.fst then T else T ++ [r]

/-- `upsert_dim_dates` from `load.py`. -/
def upsert_dim_dates (db : DB) (cleaned : List OutRow) : DB :=
  if cleaned = [] then db
  else
    { db with
      dim_dates :=
        ((sortedSetStr (cleaned.map OutRow.event_date)).filterMap
            parseDateRow).foldl insertIgnoreDate db.dim_dates }

/-- `event_type_id_map` from `load.py`: the event → surrogate-id lookup
read back from the dimension. -/
def event_type_id_map (db : DB) : List (String × Nat) :=
  db.dim_event_types

/-- The fact tuple built for one cleaned row (`load.py` lines 270–280),
given its resolved `event_type_id`. -/
def mkFact (r : OutRow) (i : Nat) : FactRow :=
  { event_id := pyStr r.event_id "nan"
    ts := strOfTs r.ts
    user_id :=
      let s := pyStr r.user_id "<NA>"
      if pyIsnaStr s || pyStrip s = "" then none else some s
    event_type_id := i
    amount := r.amount
    event_date := r.event_date
    event_hour := some r.event_hour }

/-- The payload loop of `upsert_fact_events`: `int(r.event_type_id)`
raises (`TypeError`) on an unresolved foreign key. -/
def buildPayload (m : List (String × Nat)) :
    List OutRow → Except String (List FactRow)
  | [] => .ok []
  | r :: rs =>
    match List.lookup r.event m with
    | none => .error "TypeError: int of NA event_type_id"
    | some i =>
      match buildPayload m rs with
      | .error e => .error e
      | .ok ps => .ok (mkFact r i :: ps)

/-- `INSERT INTO fact_events ... ON CONFLICT(event_id) DO UPDATE SET ...`
for one row: overwrite all non-key fields in place, else append. -/
def upsertFactRow (T : List FactRow) (f : FactRow) : List FactRow :=
  if f.event_id ∈ T.map FactRow.event_id then
    T.map (fun row => if row.event_id = f.event_id then f else row)
  else T ++ [f]

/-- `upsert_fact_events` from `load.py`: dimension upserts, foreign-key
resolution, then the batched fact upsert.  Returns the new state and the
number of payload rows, or the error raised by an unresolvable key. -/
def upsert_fact_events (db : DB) (cleaned : List OutRow) :
    Except String (DB × Nat) :=
  if cleaned = [] then .ok (db, 0)
  else
    let db1 := upsert_dim_event_types db cleaned
    let db2 := upsert_dim_dates db1 cleaned
    match buildPayload (event_type_id_map db2) cleaned with
    | .error e => .error e
    | .ok payload =>
      .ok ({ db2 with
              fact_events := payload.foldl upsertFactRow db2.fact_events },
           payload.length)

/-! ### load.py: user-dimension upsert -/

/-- A row of the DataFrame handed to `upsert_dim_users` (in the pipeline
this is the cleaned frame: `user_id`, `country`, `signup_source`, each
possibly missing). -/
structure UDRow where
  user_id : Option String
  country : Option String
  signup_source : Option String
deriving DecidableEq, Repr

/-- `drop_duplicates()` over triples: keep the first occurrence of each
value (the `seen` accumulator carries the values already emitted). -/
def keepFirstAux (seen : List (String × String × String)) :
    List (String × String × String) → List (String × String × String)
  | [] => []
  | x :: l =>
    if x ∈ seen then keepFirstAux seen l
    else x :: keepFirstAux (x :: seen) l

/-- `drop_duplicates()` over triples. -/
def keepFirstTriples (l : List (String × String × String)) :
    List (String × String × String) :=
  keepFirstAux [] l

/-- `INSERT INTO dim_users ... ON CONFLICT(user_id) DO UPDATE SET ...`
for one triple (last value wins per `user_id`). -/
def upsertUserRow (T : List (String × String × String))
    (r : String × String × String) : List (String × String × String) :=
  if r.1 ∈ T.map Prod.fst then
    T.map (fun row => if row.1 = r.1 then r else row)
  else T ++ [r]

/-- `upsert_dim_users` from `load.py`: normalize
(`astype(str)` / `fillna("unknown")`), take distinct triples, filter on
`pd.notna(user_id) and str(user_id).strip() != ""`, and upsert.  Note the
`astype(str)` happens before the notna check. -/
def upsert_dim_users (db : DB) (users : List UDRow) : DB × Nat :=
  if users = [] then (db, 0)
  else
    let u := users.map (fun r =>
      (pyStr r.user_id "<NA>",
       pyStr r.country "unknown",
       pyStr r.signup_source "unknown"))
    let rows := keepFirstTriples u
    let payload := rows.filter
      (fun t => !pyIsnaStr t.1 && !(pyStrip t.1 = ""))
    ({ db with dim_users := payload.foldl upsertUserRow db.dim_users },
     payload.length)

/-- The load stage of `run_pipeline.main`: `upsert_fact_events` applied to
the transform output on a fresh warehouse; the resulting fact table. -/
def mainLoadFacts (events : List EventIn) (users : List UserIn) :
    List FactRow :=
  match upsert_fact_events emptyDB (transform events users).1 with
  | .ok (db, _) => db.fact_events
  | .error _ => []

/-- A source record counts as loaded when a fact row carries its
(stringified) `event_id` and `ts`. -/
def recordLoaded (facts : List FactRow) (r : EventIn) : Prop :=
  ∃ f ∈ facts, f.event_id = pyStr r.event_id "nan" ∧ f.ts = strOfTs r.ts

instance (facts : List FactRow) (r : EventIn) :
    Decidable (recordLoaded facts r) :=
  inferInstanceAs (Decidable (∃ f ∈ facts, _ ∧ _))

/-- The absorption invariant: `f`'s key is present and every row with that
key already equals `f`. -/
def Absorbed (T : List FactRow) (f : FactRow) : Prop :=
  f.event_id ∈ T.map FactRow.event_id ∧
  ∀ row ∈ T, row.event_id = f.event_id → row = f

/-! ### quality.py: the data-quality report -/

/-- `QualityReport` from `quality.py` (counter fields). -/
structure QualityReport where
  run_utc : String
  raw_lines : Nat
  ingest_good : Nat
  ingest_bad : Nat
  transform_invalid_event_type : Nat
  loaded_rows : Nat
  dedup_removed : Nat
  null_user_id : Nat
deriving DecidableEq, Repr

/-- The `rejected_total` property. -/
def rejected_total (q : QualityReport) : Nat :=
  q.ingest_bad + q.transform_invalid_event_type

/-- The `reject_rate` property: `raw_lines if raw_lines else 0` as the
denominator, and `0.0` when it is falsy. -/
def reject_rate (q : QualityReport) : ℚ :=
  let denom : Nat := if q.raw_lines ≠ 0 then q.raw_lines else 0
  if denom ≠ 0 then (rejected_total q : ℚ) / (denom : ℚ) else 0

/-! ### ingest.py: reading JSONL events

`json.loads` and `pd.to_datetime` are external library calls; the
embedding takes them as parameters (`jsonLoads` returns a decoded object
or a decode-error message; `toDT` coerces the `ts` value to a UTC
timestamp or fails). -/

/-- A decoded JSON value (a parsed timestamp written back into the record
is `jts`). -/
inductive JVal where
  | jstr (s : String)
  | jnum (n : Int)
  | jbool (b : Bool)
  | jnull
  | jts (t : Int)
deriving DecidableEq, Repr

/-- A decoded JSON object (insertion-ordered key/value pairs). -/
abbrev JObj := List (String × JVal)

/-- A quarantined ingest record: the decoded object (or the raw line when
decoding failed), the 1-based line number, and the reason. -/
structure BadIngest where
  obj : Option JObj
  raw : Option String
  line : Nat
  reason : String
deriving DecidableEq, Repr

/-- `IngestResult` from `ingest.py`. -/
structure IngestResult where
  events : List JObj
  bad_records : List BadIngest
deriving DecidableEq, Repr

/-- `REQUIRED_FIELDS` from `ingest.py`. -/
def REQUIRED_FIELDS : List String := ["event_id", "ts", "event"]

/-- `REQUIRED_FIELDS - set(obj.keys())`, rendered sorted as in the reason
string. -/
def missingFields (o : JObj) : List String :=
  REQUIRED_FIELDS.filter (fun k => ¬ k ∈ o.map Prod.fst)

/-- `obj.get(k)`. -/
def lookupKey (o : JObj) (k : String) : Option JVal :=
  List.lookup k o

/-- `obj[k] = v` for a key already present. -/
def setKey (o : JObj) (k : String) (v : JVal) : JObj :=
  o.map (fun p => if p.1 = k then (p.1, v) else p)

/-- One iteration of the ingest loop at 1-based line number `i`:
`none` when the stripped line is blank (skipped), else the good record or
the quarantine entry. -/
def processLine (jsonLoads : String → JObj ⊕ String)
    (toDT : Option JVal → Option Int) (i : Nat) (raw : String) :
    Option (JObj ⊕ BadIngest) :=
  let line := pyStrip raw
  if line = "" then none
  else
    match jsonLoads line with
    | .inr msg => some (.inr ⟨none, some line, i, "json_decode_error=" ++ msg⟩)
    | .inl obj =>
      if missingFields obj = [] then
        match toDT (lookupKey obj "ts") with
        | none => some (.inr ⟨some obj, none, i, "invalid_timestamp"⟩)
        | some t => some (.inl (setKey obj "ts" (.jts t)))
      else
        some (.inr ⟨some obj, none, i,
          "missing_fields=" ++ toString (sortedSetStr (missingFields obj))⟩)

/-- The good-record component of a processed line. -/
def goodPart : Option (JObj ⊕ BadIngest) → Option JObj
  | some (.inl o) => some o
  | _ => none

/-- The quarantine component of a processed line. -/
def badPart : Option (JObj ⊕ BadIngest) → Option BadIngest
  | some (.inr b) => some b
  | _ => none

/-- The good record a raw line contributes, independent of its position. -/
def goodOf (jsonLoads : String → JObj ⊕ String)
    (toDT : Option JVal → Option Int) (raw : String) : Option JObj :=
  goodPart (processLine jsonLoads toDT 0 raw)

/-- `read_events_jsonl` from `ingest.py`: iterate `enumerate(f, start=1)`,
split each line into good/bad, then hit the post-loop logging statement —
which references the loop variable and raises `NameError` when the file
had no lines at all. -/
def read_events_jsonl (jsonLoads : String → JObj ⊕ String)
    (toDT : Option JVal → Option Int) (lines : List String) :
    Except String IngestResult :=
  let results := List.enumFrom 1 lines
  let good := results.filterMap (fun p => goodPart (processLine jsonLoads toDT p.1 p.2))
  let bad := results.filterMap (fun p => badPart (processLine jsonLoads toDT p.1 p.2))
  match lines with
  | [] => .error "NameError: i is not defined"
  | _ :: _ => .ok ⟨good, bad⟩

/-- Concrete decoder stub used by the ingest witnesses: two known lines
decode to fixed objects, everything else is a decode error. -/
def witJson (s : String) : JObj ⊕ String :=
  if s = "L1" then
    .inl [("event_id", .jstr "e1"), ("ts", .jstr "2026-01-01T00:00:01Z"),
      ("event", .jstr "signup")]
  else if s = "L2" then
    .inl [("event_id", .jstr "e2"), ("ts", .jstr "BAD_TIME"),
      ("event", .jstr "signup")]
  else .inr "Expecting value"

/-- Concrete timestamp coercion stub used by the ingest witnesses. -/
def witTs (v : Option JVal) : Option Int :=
  match v with
  | some (.jstr "2026-01-01T00:00:01Z") => some 1767225601
  | _ => none

/-! ## Theorems -/

/-! ### The decimal timestamp rendering is injective -/

theorem digitChar10_val : ∀ d, d < 10 → (digitChar10 d).toNat - 48 = d := by
  decide

theorem natChars_val : ∀ (fuel n : Nat), n ≤ fuel →
    charsVal (natChars fuel n) = n
  | 0, n, h => by
    have hn : n = 0 := Nat.le_zero.mp h
    rw [natChars, hn]
    rfl
  | fuel + 1, n, h => by
    rw [natChars]
    by_cases hz : n = 0
    · rw [if_pos hz, hz]
      rfl
    · rw [if_neg hz, charsVal]
      have hdiv : n / 10 < n := Nat.div_lt_self (Nat.pos_of_ne_zero hz) (by omega)
      rw [natChars_val fuel (n / 10) (by omega)]
      rw [digitChar10_val (n % 10) (Nat.mod_lt n (by omega))]
      omega

theorem natStrChars_val (n : Nat) : charsVal (natStrChars n).reverse = n := by
  rw [natStrChars]
  by_cases hz : n = 0
  · rw [if_pos hz, hz]
    rfl
  · rw [if_neg hz, List.reverse_reverse]
    exact natChars_val n n (Nat.le_refl n)

theorem natStrChars_injective : Function.Injective natStrChars := by
  intro a b h
  have := natStrChars_val a
  rw [h, natStrChars_val b] at this
  exact this.symm

theorem digitChar10_ne_dash : ∀ d, digitChar10 d ≠ '-' := by
  intro d
  match d with
  | 0 => decide
  | 1 => decide
  | 2 => decide
  | 3 => decide
  | 4 => decide
  | 5 => decide
  | 6 => decide
  | 7 => decide
  | 8 => decide
  | _ + 9 => exact (by decide : ('9' : Char) ≠ '-')

theorem natChars_ne_dash : ∀ (fuel n : Nat), ∀ c ∈ natChars fuel n, c ≠ '-'
  | 0, _, c, hc => absurd hc (List.not_mem_nil c)
  | fuel + 1, n, c, hc => by
    rw [natChars] at hc
    by_cases hz : n = 0
    · rw [if_pos hz] at hc
      exact absurd hc (List.not_mem_nil c)
    · rw [if_neg hz] at hc
      rcases List.mem_cons.mp hc with rfl | hc'
      · exact digitChar10_ne_dash (n % 10)
      · exact natChars_ne_dash fuel (n / 10) c hc'

theorem natStrChars_ne_dash (n : Nat) : ∀ c ∈ natStrChars n, c ≠ '-' := by
  intro c hc
  rw [natStrChars] at hc
  by_cases hz : n = 0
  · rw [if_pos hz] at hc
    rw [List.mem_singleton] at hc
    subst hc
    decide
  · rw [if_neg hz, List.mem_reverse] at hc
    exact natChars_ne_dash n n c hc

/-- The model of `str(timestamp)` is injective: distinct timestamps never
render to the same text. -/
theorem strOfTs_injective : Function.Injective strOfTs := by
  intro a b h
  match a, b with
  | .ofNat n, .ofNat m =>
    have hl : natStrChars n = natStrChars m := congrArg String.data h
    rw [natStrChars_injective hl]
  | .ofNat n, .negSucc m =>
    have hl : natStrChars n = '-' :: natStrChars (m + 1) :=
      congrArg String.data h
    exact absurd rfl
      (natStrChars_ne_dash n '-' (hl ▸ List.mem_cons_self '-' _))
  | .negSucc n, .ofNat m =>
    have hl : '-' :: natStrChars (n + 1) = natStrChars m :=
      congrArg String.data h
    exact absurd rfl
      (natStrChars_ne_dash m '-' (hl ▸ List.mem_cons_self '-' _))
  | .negSucc n, .negSucc m =>
    have hl : '-' :: natStrChars (n + 1) = '-' :: natStrChars (m + 1) :=
      congrArg String.data h
    have ht : natStrChars (n + 1) = natStrChars (m + 1) :=
      congrArg List.tail hl
    have hnm : n + 1 = m + 1 := natStrChars_injective ht
    have hnm' : n = m := by omega
    rw [hnm']

/-- C4: the canonicalization maps `"page_view"`, `"Page View"` and
`"pageview"` to `"pageview"`, and any string whose case/whitespace/hyphen
normalization lands on a known synonym of `pageview` is mapped to the
canonical spelling `"pageview"`. -/
theorem canonEvent_pageview_variants :
    canonEvent "page_view" = "pageview" ∧
    canonEvent "Page View" = "pageview" ∧
    canonEvent "pageview" = "pageview" ∧
    ∀ s : String,
      (normEvent s = "page_view" ∨ normEvent s = "page view" ∨
        normEvent s = "pageview") →
      canonEvent s = "pageview" := by
  refine ⟨by decide, by decide, by decide, ?_⟩
  intro s hs
  unfold canonEvent synonymMap
  rcases hs with h | h | h <;> simp [h]

/-- Witness for the universal part of C4 at the concrete variant
`" Page-View "`. -/
theorem canonEvent_pageview_variants_witness :
    canonEvent " Page-View " = "pageview" := by
  have h := canonEvent_pageview_variants
  exact h.2.2.2 " Page-View " (by decide)

/-! ### Deduplication: per-group survivor characterization -/

theorem getLast?_cons_of_ne_nil {α : Type} (a : α) {l : List α}
    (h : l ≠ []) : (a :: l).getLast? = l.getLast? := by
  cases l with
  | nil => exact absurd rfl h
  | cons b t => exact List.getLast?_cons_cons

/-- `keep="last"` characterized per key: the surviving rows with a given
`event_id` are exactly the last row of that key group. -/
theorem keepLastBy_filter (k : Option String) :
    ∀ l : List EventIn,
      (keepLastBy l).filter (fun x => x.event_id = k) =
        ((l.filter (fun x => x.event_id = k)).getLast?).toList
  | [] => rfl
  | x :: l => by
    by_cases hmem : (l.map EventIn.event_id).contains x.event_id
    · rw [keepLastBy, if_pos hmem]
      by_cases hk : x.event_id = k
      · have hne : l.filter (fun y => y.event_id = k) ≠ [] := by
          rw [List.contains_iff_exists_mem_beq] at hmem
          obtain ⟨e, he, heq⟩ := hmem
          obtain ⟨y, hy, rfl⟩ := List.mem_map.mp he
          intro hnil
          have : y ∈ l.filter (fun z => z.event_id = k) := by
            rw [List.mem_filter]
            refine ⟨hy, ?_⟩
            simp only [decide_eq_true_eq]
            rw [← hk]
            exact (eq_of_beq heq).symm
          rw [hnil] at this
          exact absurd this (List.not_mem_nil y)
        rw [List.filter_cons_of_pos (by simp [hk]),
          getLast?_cons_of_ne_nil x hne]
        exact keepLastBy_filter k l
      · rw [List.filter_cons_of_neg (by simp [hk])]
        exact keepLastBy_filter k l
    · rw [keepLastBy, if_neg hmem]
      by_cases hk : x.event_id = k
      · have hnil : l.filter (fun y => y.event_id = k) = [] := by
          rw [List.filter_eq_nil_iff]
          intro y hy
          simp only [decide_eq_true_eq]
          intro hyk
          apply hmem
          rw [List.contains_iff_exists_mem_beq]
          exact ⟨y.event_id, List.mem_map_of_mem EventIn.event_id hy,
            by simp [hyk, hk]⟩
        rw [List.filter_cons_of_pos (by simp [hk]),
          List.filter_cons_of_pos (by simp [hk]), hnil,
          keepLastBy_filter k l, hnil]
        rfl
      · rw [List.filter_cons_of_neg (by simp [hk]),
          List.filter_cons_of_neg (by simp [hk])]
        exact keepLastBy_filter k l

/-- In a `tsLe`-sorted list the last element dominates every member. -/
theorem sorted_getLast?_max {a : EventIn} :
    ∀ {m : List EventIn}, List.Sorted tsLe m → m.getLast? = some a →
      ∀ b ∈ m, b.ts ≤ a.ts
  | [], _, h => by cases h
  | [x], _, h => by
    intro b hb
    have hax : a = x := by simpa using h.symm
    have hbx : b = x := by simpa using hb
    rw [hax, hbx]
  | x :: y :: t, hs, h => by
    intro b hb
    have h' : (y :: t).getLast? = some a := by
      rw [← List.getLast?_cons_cons (a := x)]; exact h
    rcases List.mem_cons.mp hb with rfl | hb'
    · have ha : a ∈ y :: t := List.mem_of_getLast?_eq_some h'
      exact (List.sorted_cons.mp hs).1 a ha
    · exact sorted_getLast?_max (List.sorted_cons.mp hs).2 h' b hb'

/-- Shared characterization of one `event_id` group under `dedupLatest`:
exactly one record of the group survives, and it has the group's maximal
`ts` (which of several max-`ts` ties survives depends on the unspecified
tie order of the sort and is not asserted). -/
theorem dedup_group_spec (rs : List EventIn) (k : Option String)
    (hk : k ∈ rs.map EventIn.event_id) :
    ∃ a, (dedupLatest rs).filter (fun x => x.event_id = k) = [a] ∧
      a ∈ rs ∧ a.event_id = k ∧
      (∀ b ∈ rs, b.event_id = k → b.ts ≤ a.ts) := by
  set sorted := List.insertionSort tsLe rs with hsorted
  have hsort : List.Sorted tsLe sorted := List.sorted_insertionSort tsLe rs
  set m := sorted.filter (fun x => x.event_id = k) with hm
  have hmne : m ≠ [] := by
    obtain ⟨y, hy, rfl⟩ := List.mem_map.mp hk
    intro hnil
    have : y ∈ m := by
      rw [hm, List.mem_filter]
      exact ⟨(List.mem_insertionSort tsLe).mpr hy, by simp⟩
    rw [hnil] at this
    exact absurd this (List.not_mem_nil y)
  obtain ⟨a, ha⟩ := Option.isSome_iff_exists.mp (List.getLast?_isSome.mpr hmne)
  have haMem : a ∈ m := List.mem_of_getLast?_eq_some ha
  have haSorted : a ∈ sorted := List.mem_of_mem_filter haMem
  have haK : a.event_id = k := by
    have := List.of_mem_filter haMem
    simpa using this
  have hmSorted : List.Sorted tsLe m := List.Sorted.filter _ hsort
  refine ⟨a, ?_, ?_, haK, ?_⟩
  · rw [dedupLatest, keepLastBy_filter k, ← hsorted, ← hm, ha]
    rfl
  · exact (List.mem_insertionSort tsLe).mp haSorted
  · intro b hb hbk
    have hbm : b ∈ m := by
      rw [hm, List.mem_filter]
      exact ⟨(List.mem_insertionSort tsLe).mpr hb, by simp [hbk]⟩
    exact sorted_getLast?_max hmSorted ha b hbm

/-! ### C5: allow-list enforcement and the count equation -/

theorem keepLastBy_length_le : ∀ l : List EventIn, (keepLastBy l).length ≤ l.length
  | [] => Nat.le_refl 0
  | x :: l => by
    rw [keepLastBy]
    by_cases h : (l.map EventIn.event_id).contains x.event_id
    · rw [if_pos h]
      exact Nat.le_succ_of_le (keepLastBy_length_le l)
    · rw [if_neg h]
      exact Nat.succ_le_succ (keepLastBy_length_le l)

theorem dedupLatest_length_le (rs : List EventIn) :
    (dedupLatest rs).length ≤ rs.length := by
  rw [dedupLatest]
  calc (keepLastBy (List.insertionSort tsLe rs)).length
      ≤ (List.insertionSort tsLe rs).length := keepLastBy_length_le _
    _ = rs.length := List.length_insertionSort tsLe rs

theorem keepLastBy_subset : ∀ {l : List EventIn} {x : EventIn},
    x ∈ keepLastBy l → x ∈ l := by
  intro l
  induction l with
  | nil => intro x h; cases h
  | cons y l ih =>
    intro x h
    rw [keepLastBy] at h
    by_cases hc : (l.map EventIn.event_id).contains y.event_id
    · rw [if_pos hc] at h
      exact List.mem_cons_of_mem y (ih h)
    · rw [if_neg hc] at h
      rcases List.mem_cons.mp h with rfl | h'
      · exact List.mem_cons_self x l
      · exact List.mem_cons_of_mem y (ih h')

theorem dedupLatest_subset {rs : List EventIn} {x : EventIn}
    (h : x ∈ dedupLatest rs) : x ∈ rs :=
  (List.mem_insertionSort tsLe).mp (keepLastBy_subset h)

/-- Filtering a list on a predicate and its negation partitions its length. -/
theorem length_filter_partition {α : Type} (p : α → Bool) :
    ∀ l : List α,
      (l.filter (fun x => !p x)).length + (l.filter p).length = l.length
  | [] => rfl
  | x :: l => by
    cases h : p x <;>
      simp [List.filter_cons, h, ← length_filter_partition p l] <;> omega

/-- With no duplicated key in `users`, each join key matches at most one
user row. -/
theorem nodup_filter_key_le_one (users : List UserIn) (u : String)
    (hnd : (users.map UserIn.user_id).Nodup) :
    (users.filter (fun w => w.user_id = u)).length ≤ 1 := by
  induction users with
  | nil => simp
  | cons w us ih =>
    rw [List.map_cons, List.nodup_cons] at hnd
    by_cases hw : w.user_id = u
    · rw [List.filter_cons_of_pos (by simp [hw])]
      have : us.filter (fun v => v.user_id = u) = [] := by
        rw [List.filter_eq_nil_iff]
        intro v hv
        simp only [decide_eq_true_eq]
        intro hvu
        exact hnd.1 (hw ▸ hvu ▸ List.mem_map_of_mem UserIn.user_id hv)
      rw [this]
      simp
    · rw [List.filter_cons_of_neg (by simp [hw])]
      exact ih hnd.2

/-- With unique user keys, each event row yields exactly one joined row. -/
theorem mergeRow_length (users : List UserIn) (e : EventIn)
    (hnd : (users.map UserIn.user_id).Nodup) :
    (mergeRow users e).length = 1 := by
  rw [mergeRow]
  match e.user_id with
  | none => rfl
  | some u =>
    simp only
    by_cases hm : (users.filter (fun w => w.user_id = u)).isEmpty
    · rw [if_pos hm]
      rfl
    · rw [if_neg hm, List.length_map]
      have h1 : (users.filter (fun w => w.user_id = u)).length ≤ 1 :=
        nodup_filter_key_le_one users u hnd
      have h0 : (users.filter (fun w => w.user_id = u)).length ≠ 0 := by
        intro hz
        exact hm (List.isEmpty_iff.mpr (List.length_eq_zero.mp hz))
      omega

/-- With unique user keys the left join is row-preserving. -/
theorem mergeLeft_length (rs : List EventIn) (users : List UserIn)
    (hnd : (users.map UserIn.user_id).Nodup) :
    (mergeLeft rs users).length = rs.length := by
  induction rs with
  | nil => rfl
  | cons e rs ih =>
    rw [mergeLeft, List.flatMap_cons, List.length_append,
      mergeRow_length users e hnd]
    rw [mergeLeft] at ih
    rw [ih, List.length_cons]
    omega

/-- Every output row of the left join comes from an input row, keeping its
`event`, `event_id` and `ts`. -/
theorem mergeRow_mem {users : List UserIn} {e : EventIn} {o : OutRow}
    (h : o ∈ mergeRow users e) :
    o.event = e.event ∧ o.event_id = e.event_id ∧ o.ts = e.ts := by
  rw [mergeRow] at h
  match hid : e.user_id with
  | none =>
    rw [hid] at h
    rw [List.mem_singleton] at h
    subst h
    exact ⟨rfl, rfl, rfl⟩
  | some u =>
    rw [hid] at h
    simp only at h
    by_cases hm : (users.filter (fun w => w.user_id = u)).isEmpty
    · rw [if_pos hm] at h
      rw [List.mem_singleton] at h
      subst h
      exact ⟨rfl, rfl, rfl⟩
    · rw [if_neg hm] at h
      obtain ⟨w, _, rfl⟩ := List.mem_map.mp h
      exact ⟨rfl, rfl, rfl⟩

theorem mergeLeft_mem {rs : List EventIn} {users : List UserIn} {o : OutRow}
    (h : o ∈ mergeLeft rs users) :
    ∃ e ∈ rs, o.event = e.event ∧ o.event_id = e.event_id ∧ o.ts = e.ts := by
  rw [mergeLeft] at h
  obtain ⟨e, he, ho⟩ := List.mem_flatMap.mp h
  exact ⟨e, he, mergeRow_mem ho⟩

/-- Every input row of the left join yields at least one output row with
its `event_id` and `ts`. -/
theorem mergeRow_ne_nil (users : List UserIn) (e : EventIn) :
    mergeRow users e ≠ [] := by
  rw [mergeRow]
  match e.user_id with
  | none => exact List.cons_ne_nil _ _
  | some u =>
    simp only
    by_cases hm : (users.filter (fun w => w.user_id = u)).isEmpty
    · rw [if_pos hm]
      exact List.cons_ne_nil _ _
    · rw [if_neg hm]
      intro hnil
      rw [List.map_eq_nil_iff] at hnil
      exact hm (by rw [hnil]; rfl)

theorem mergeLeft_exists {rs : List EventIn} {users : List UserIn} {e : EventIn}
    (h : e ∈ rs) :
    ∃ o ∈ mergeLeft rs users, o.event_id = e.event_id ∧ o.ts = e.ts := by
  match ho : mergeRow users e with
  | [] => exact absurd ho (mergeRow_ne_nil users e)
  | o :: os =>
    have hom : o ∈ mergeRow users e := by rw [ho]; exact List.mem_cons_self o os
    obtain ⟨_, hid, hts⟩ := mergeRow_mem hom
    exact ⟨o, List.mem_flatMap_of_mem h hom, hid, hts⟩

/-- Members of `typedRows` are the input rows with `user_id` normalized:
`event`, `event_id` and `ts` are untouched. -/
theorem typedRows_mem {rs : List EventIn} {x : EventIn} (h : x ∈ typedRows rs) :
    ∃ e ∈ rs, x.event = e.event ∧ x.event_id = e.event_id ∧ x.ts = e.ts := by
  obtain ⟨e, he, rfl⟩ := List.mem_map.mp h
  exact ⟨e, he, rfl, rfl, rfl⟩

theorem typedRows_exists {rs : List EventIn} {e : EventIn} (h : e ∈ rs) :
    ∃ x ∈ typedRows rs, x.event_id = e.event_id ∧ x.ts = e.ts :=
  ⟨_, List.mem_map_of_mem _ h, rfl, rfl⟩

/-- C5, counterexample to the count equation as stated: with a duplicated
`user_id` in the user dimension the left join fans out, and
`rows_out + invalid_event_type ≠ rows_input_after_dedup`. -/
theorem transform_counts_counterexample :
    (transform
        [⟨some "e1", 0, some "1", "signup", none, none⟩]
        [⟨"1", some "US", some "a"⟩, ⟨"1", some "DE", some "b"⟩]).2.2.rows_out +
      (transform
        [⟨some "e1", 0, some "1", "signup", none, none⟩]
        [⟨"1", some "US", some "a"⟩, ⟨"1", some "DE", some "b"⟩]).2.2.invalid_event_type ≠
    ([(⟨some "e1", 0, some "1", "signup", none, none⟩ : EventIn)]).length -
      (transform
        [⟨some "e1", 0, some "1", "signup", none, none⟩]
        [⟨"1", some "US", some "a"⟩, ⟨"1", some "DE", some "b"⟩]).2.2.dedup_removed := by
  decide

/-- C5 (amended): unconditionally, every record whose canonicalized event
is outside the allow-list is quarantined with reason `invalid_event_type`
and no clean output row carries a disallowed event; the count equation
`rows_out + invalid_event_type = rows_input - dedup_removed` holds under
the one proviso the counterexample forces — no duplicated (normalized)
`user_id` in the user dimension, so the left join cannot fan out. -/
theorem transform_allowlist_and_counts (events : List EventIn)
    (users : List UserIn) (h : events ≠ []) :
    (transform events users).2.1 =
      (invalidRows (canonStage events)).map mkBadInvalid ∧
    (∀ e ∈ canonStage events, e.event ∉ ALLOWED_EVENTS →
      mkBadInvalid e ∈ (transform events users).2.1) ∧
    (∀ o ∈ (transform events users).1, o.event ∈ ALLOWED_EVENTS) ∧
    (((normUsers users).map UserIn.user_id).Nodup →
      (transform events users).2.2.rows_out +
          (transform events users).2.2.invalid_event_type =
        events.length - (transform events users).2.2.dedup_removed) := by
  have hallow : ∀ e : EventIn, allowedB e = true ↔ e.event ∈ ALLOWED_EVENTS := by
    intro e
    rw [allowedB, List.contains, List.elem_eq_mem, decide_eq_true_eq]
  rw [transform, if_neg h]
  simp only
  refine ⟨by trivial, ?_, ?_, ?_⟩
  · intro e he hbad
    apply List.mem_map_of_mem
    rw [invalidRows, List.mem_filter]
    refine ⟨he, ?_⟩
    rw [Bool.not_eq_true']
    rw [← Bool.not_eq_true, hallow]
    exact hbad
  · intro o ho
    obtain ⟨x, hx, hxe, _, _⟩ := mergeLeft_mem ho
    obtain ⟨e, he, hee, _, _⟩ := typedRows_mem hx
    have := List.of_mem_filter (dedupLatest_subset he)
    rw [hxe, hee]
    exact (hallow e).mp this
  · intro hnd
    have hpart := length_filter_partition allowedB (canonStage events)
    have hlen : (canonStage events).length = events.length := by
      rw [canonStage, List.length_map]
    have hded := dedupLatest_length_le (validRows (canonStage events))
    have hout : (mergeLeft (typedRows (dedupLatest (validRows (canonStage events))))
        (normUsers users)).length =
        (dedupLatest (validRows (canonStage events))).length := by
      rw [mergeLeft_length _ _ hnd, typedRows, List.length_map]
    rw [hout]
    rw [invalidRows, validRows] at *
    omega

/-- Witness for C5 (amended): one disallowed record is quarantined and the
count equation holds at a concrete input. -/
theorem transform_allowlist_and_counts_witness :
    (transform
        [⟨some "e1", 0, some "1", "logout", none, none⟩,
         ⟨some "e2", 5, some "1", "signup", none, none⟩]
        [⟨"1", some "US", some "a"⟩]).2.1 =
      (invalidRows (canonStage
        [⟨some "e1", 0, some "1", "logout", none, none⟩,
         ⟨some "e2", 5, some "1", "signup", none, none⟩])).map mkBadInvalid ∧
    (∀ e ∈ canonStage
        [⟨some "e1", 0, some "1", "logout", none, none⟩,
         ⟨some "e2", 5, some "1", "signup", none, none⟩],
      e.event ∉ ALLOWED_EVENTS →
      mkBadInvalid e ∈ (transform
        [⟨some "e1", 0, some "1", "logout", none, none⟩,
         ⟨some "e2", 5, some "1", "signup", none, none⟩]
        [⟨"1", some "US", some "a"⟩]).2.1) ∧
    (∀ o ∈ (transform
        [⟨some "e1", 0, some "1", "logout", none, none⟩,
         ⟨some "e2", 5, some "1", "signup", none, none⟩]
        [⟨"1", some "US", some "a"⟩]).1, o.event ∈ ALLOWED_EVENTS) ∧
    (transform
        [⟨some "e1", 0, some "1", "logout", none, none⟩,
         ⟨some "e2", 5, some "1", "signup", none, none⟩]
        [⟨"1", some "US", some "a"⟩]).2.2.rows_out +
      (transform
        [⟨some "e1", 0, some "1", "logout", none, none⟩,
         ⟨some "e2", 5, some "1", "signup", none, none⟩]
        [⟨"1", some "US", some "a"⟩]).2.2.invalid_event_type =
      ([(⟨some "e1", 0, some "1", "logout", none, none⟩ : EventIn),
        ⟨some "e2", 5, some "1", "signup", none, none⟩]).length -
      (transform
        [⟨some "e1", 0, some "1", "logout", none, none⟩,
         ⟨some "e2", 5, some "1", "signup", none, none⟩]
        [⟨"1", some "US", some "a"⟩]).2.2.dedup_removed := by
  have H := transform_allowlist_and_counts
    [⟨some "e1", 0, some "1", "logout", none, none⟩,
     ⟨some "e2", 5, some "1", "signup", none, none⟩]
    [⟨"1", some "US", some "a"⟩] (by decide)
  exact ⟨H.1, H.2.1, H.2.2.1, H.2.2.2 (by decide)⟩

/-! ### C1: referential integrity of the fact load -/

theorem mem_keys_exists {β : Type} {T : List (String × β)} {k : String}
    (h : k ∈ T.map Prod.fst) : ∃ v, (k, v) ∈ T := by
  obtain ⟨⟨k', v⟩, hm, hk⟩ := List.mem_map.mp h
  subst hk
  exact ⟨v, hm⟩

theorem lookup_some_of_mem_keys {β : Type} {T : List (String × β)}
    {k : String} (h : k ∈ T.map Prod.fst) :
    ∃ v, List.lookup k T = some v := by
  induction T with
  | nil => cases h
  | cons p T ih =>
    by_cases hk : k = p.1
    · have hb : (k == p.1) = true := beq_iff_eq.mpr hk
      refine ⟨p.2, ?_⟩
      rw [List.lookup, hb]
    · have hb : (k == p.1) = false := beq_eq_false_iff_ne.mpr hk
      rw [List.map_cons] at h
      rcases List.mem_cons.mp h with h1 | h1
      · exact absurd h1 hk
      · obtain ⟨v, hv⟩ := ih h1
        refine ⟨v, ?_⟩
        rw [List.lookup, hb]
        exact hv

theorem lookup_mem {β : Type} {T : List (String × β)} {k : String} {v : β}
    (h : List.lookup k T = some v) : (k, v) ∈ T := by
  induction T with
  | nil => cases h
  | cons p T ih =>
    rw [List.lookup] at h
    cases hk : (k == p.1) with
    | true =>
      rw [hk] at h
      cases h
      have hkp : k = p.1 := beq_iff_eq.mp hk
      rw [hkp]
      exact List.mem_cons_self _ _
    | false =>
      rw [hk] at h
      exact List.mem_cons_of_mem p (ih h)

/-- `insertIgnoreET` never removes dimension entries. -/
theorem insertIgnoreET_preserves {db : DB} {e : String}
    {pr : String × Nat} (h : pr ∈ db.dim_event_types) :
    pr ∈ (insertIgnoreET db e).dim_event_types := by
  rw [insertIgnoreET]
  by_cases hm : e ∈ db.dim_event_types.map Prod.fst
  · rwa [if_pos hm]
  · rw [if_neg hm]
    exact List.mem_append_left _ h

/-- After folding `insertIgnoreET` over a list of events, every old entry
survives and every folded event has an entry. -/
theorem foldl_insertIgnoreET_spec :
    ∀ (es : List String) (db : DB),
      (∀ pr ∈ db.dim_event_types, pr ∈ (es.foldl insertIgnoreET db).dim_event_types) ∧
      (∀ e ∈ es, ∃ i, (e, i) ∈ (es.foldl insertIgnoreET db).dim_event_types)
  | [], db => ⟨fun _ h => h, fun _ h => absurd h (List.not_mem_nil _)⟩
  | x :: es, db => by
    have ih := foldl_insertIgnoreET_spec es (insertIgnoreET db x)
    rw [List.foldl_cons]
    constructor
    · intro pr hpr
      exact ih.1 pr (insertIgnoreET_preserves hpr)
    · intro e he
      rcases List.mem_cons.mp he with rfl | h'
      · have hx : ∃ i, (e, i) ∈ (insertIgnoreET db e).dim_event_types := by
          rw [insertIgnoreET]
          by_cases hm : e ∈ db.dim_event_types.map Prod.fst
          · rw [if_pos hm]
            exact mem_keys_exists hm
          · rw [if_neg hm]
            exact ⟨db.next_event_type_id, List.mem_append_right _ (by simp)⟩
        obtain ⟨i, hi⟩ := hx
        exact ⟨i, ih.1 _ hi⟩
      · exact ih.2 e h'

/-- The event-type dimension after `upsert_dim_event_types` contains an
entry for every event of the batch. -/
theorem upsert_dim_event_types_covers {db : DB} {cleaned : List OutRow}
    {r : OutRow} (hr : r ∈ cleaned) :
    ∃ i, (r.event, i) ∈ (upsert_dim_event_types db cleaned).dim_event_types := by
  have hne : cleaned ≠ [] := List.ne_nil_of_mem hr
  rw [upsert_dim_event_types, if_neg hne]
  apply (foldl_insertIgnoreET_spec _ db).2
  rw [sortedSetStr, List.mem_insertionSort, List.mem_dedup]
  exact List.mem_map_of_mem OutRow.event hr

/-- Folding the event-type insert-if-absent only touches the event-type
dimension and its id counter. -/
theorem foldl_insertIgnoreET_frame :
    ∀ (es : List String) (d : DB),
      (es.foldl insertIgnoreET d).fact_events = d.fact_events ∧
      (es.foldl insertIgnoreET d).dim_dates = d.dim_dates ∧
      (es.foldl insertIgnoreET d).dim_users = d.dim_users
  | [], _ => ⟨rfl, rfl, rfl⟩
  | x :: es, d => by
    rw [List.foldl_cons]
    have ih := foldl_insertIgnoreET_frame es (insertIgnoreET d x)
    have hx : (insertIgnoreET d x).fact_events = d.fact_events ∧
        (insertIgnoreET d x).dim_dates = d.dim_dates ∧
        (insertIgnoreET d x).dim_users = d.dim_users := by
      rw [insertIgnoreET]
      by_cases hm : x ∈ d.dim_event_types.map Prod.fst
      · rw [if_pos hm]
        exact ⟨rfl, rfl, rfl⟩
      · rw [if_neg hm]
        exact ⟨rfl, rfl, rfl⟩
    exact ⟨ih.1.trans hx.1, (ih.2.1).trans hx.2.1, (ih.2.2).trans hx.2.2⟩

theorem upsert_dim_event_types_fact_events (d : DB) (c : List OutRow) :
    (upsert_dim_event_types d c).fact_events = d.fact_events := by
  rw [upsert_dim_event_types]
  by_cases h : c = []
  · rw [if_pos h]
  · rw [if_neg h]
    exact (foldl_insertIgnoreET_frame _ d).1

theorem upsert_dim_dates_fact_events (d : DB) (c : List OutRow) :
    (upsert_dim_dates d c).fact_events = d.fact_events := by
  rw [upsert_dim_dates]
  by_cases h : c = []
  · rw [if_pos h]
  · rw [if_neg h]

/-- The dimension upserts leave the fact table untouched. -/
theorem dims_preserve_fact_events (db : DB) (cleaned : List OutRow) :
    (upsert_dim_dates (upsert_dim_event_types db cleaned) cleaned).fact_events
      = db.fact_events := by
  rw [upsert_dim_dates_fact_events, upsert_dim_event_types_fact_events]

/-- The date upsert leaves the event-type dimension untouched. -/
theorem dates_preserve_dim_event_types (db : DB) (cleaned : List OutRow) :
    (upsert_dim_dates db cleaned).dim_event_types = db.dim_event_types := by
  rw [upsert_dim_dates]
  by_cases h : cleaned = []
  · rw [if_pos h]
  · rw [if_neg h]

/-- When every row's event resolves, the payload loop succeeds and each
payload row is the fact tuple of a batch row with its looked-up id. -/
theorem buildPayload_ok {m : List (String × Nat)} :
    ∀ {rows : List OutRow},
      (∀ r ∈ rows, ∃ i, List.lookup r.event m = some i) →
      ∃ ps, buildPayload m rows = .ok ps ∧
        ps.length = rows.length ∧
        (∀ f ∈ ps, ∃ r ∈ rows, ∃ i,
          List.lookup r.event m = some i ∧ f = mkFact r i) ∧
        ps.map FactRow.event_id = rows.map (fun r => pyStr r.event_id "nan") := by
  intro rows
  induction rows with
  | nil => exact fun _ => ⟨[], rfl, rfl, fun _ h => absurd h (List.not_mem_nil _), rfl⟩
  | cons r rows ih =>
    intro h
    obtain ⟨i, hi⟩ := h r (List.mem_cons_self r rows)
    obtain ⟨ps, hps, hlen, hmem, hids⟩ :=
      ih (fun x hx => h x (List.mem_cons_of_mem r hx))
    refine ⟨mkFact r i :: ps, ?_, ?_, ?_, ?_⟩
    · rw [buildPayload, hi, hps]
    · rw [List.length_cons, List.length_cons, hlen]
    · intro f hf
      rcases List.mem_cons.mp hf with rfl | hf'
      · exact ⟨r, List.mem_cons_self r rows, i, hi, rfl⟩
      · obtain ⟨r', hr', i', hi', hf'⟩ := hmem f hf'
        exact ⟨r', List.mem_cons_of_mem r hr', i', hi', hf'⟩
    · rw [List.map_cons, List.map_cons, hids]
      rfl

/-- Every row of the fact table after the batched upsert is either an
untouched old row whose key is outside the payload, or a payload row. -/
theorem foldl_upsertFactRow_cases :
    ∀ (ps : List FactRow) (T : List FactRow) (row : FactRow),
      row ∈ ps.foldl upsertFactRow T →
      (row ∈ T ∧ row.event_id ∉ ps.map FactRow.event_id) ∨ row ∈ ps
  | [], _, row, h => Or.inl ⟨h, List.not_mem_nil _⟩
  | f :: ps, T, row, h => by
    rw [List.foldl_cons] at h
    rcases foldl_upsertFactRow_cases ps (upsertFactRow T f) row h with ⟨hT, hid⟩ | hps
    · rw [upsertFactRow] at hT
      by_cases hm : f.event_id ∈ T.map FactRow.event_id
      · rw [if_pos hm] at hT
        obtain ⟨orig, horig, heq⟩ := List.mem_map.mp hT
        by_cases hoid : orig.event_id = f.event_id
        · rw [if_pos hoid] at heq
          exact Or.inr (heq ▸ List.mem_cons_self f ps)
        · rw [if_neg hoid] at heq
          subst heq
          refine Or.inl ⟨horig, ?_⟩
          rw [List.map_cons]
          intro hc
          rcases List.mem_cons.mp hc with h1 | h1
          · exact hoid h1
          · exact hid h1
      · rw [if_neg hm] at hT
        rcases List.mem_append.mp hT with h1 | h1
        · refine Or.inl ⟨h1, ?_⟩
          rw [List.map_cons]
          intro hc
          rcases List.mem_cons.mp hc with h2 | h2
          · exact hm (h2 ▸ List.mem_map_of_mem FactRow.event_id h1)
          · exact hid h2
        · rw [List.mem_singleton] at h1
          exact Or.inr (h1 ▸ List.mem_cons_self f ps)
    · exact Or.inr (List.mem_cons_of_mem f hps)

/-- Replacing by key preserves the key column of the fact table. -/
theorem upsertFactRow_key_step (T : List FactRow) (g : FactRow) (x : String)
    (hx : x ∈ T.map FactRow.event_id ∨ x = g.event_id) :
    x ∈ (upsertFactRow T g).map FactRow.event_id := by
  rw [upsertFactRow]
  by_cases hm : g.event_id ∈ T.map FactRow.event_id
  · rw [if_pos hm]
    have hkeys : (T.map (fun row => if row.event_id = g.event_id then g else row)).map
        FactRow.event_id = T.map FactRow.event_id := by
      rw [List.map_map]
      apply List.map_congr_left
      intro a _
      simp only [Function.comp]
      by_cases ha : a.event_id = g.event_id
      · rw [if_pos ha, ha]
      · rw [if_neg ha]
    rw [hkeys]
    rcases hx with h1 | h1
    · exact h1
    · exact h1 ▸ hm
  · rw [if_neg hm, List.map_append]
    rcases hx with h1 | h1
    · exact List.mem_append_left _ h1
    · exact List.mem_append_right _ (by simp [h1])

/-- A key present in the fact table survives the batched upsert. -/
theorem foldl_upsertFactRow_key_mono :
    ∀ (ps : List FactRow) (T : List FactRow) (x : String),
      x ∈ T.map FactRow.event_id →
      x ∈ (ps.foldl upsertFactRow T).map FactRow.event_id
  | [], _, _, h => h
  | g :: ps, T, x, h => by
    rw [List.foldl_cons]
    exact foldl_upsertFactRow_key_mono ps _ x
      (upsertFactRow_key_step T g x (Or.inl h))

/-- Every payload key appears in the fact table after the batched upsert. -/
theorem foldl_upsertFactRow_covers :
    ∀ (ps : List FactRow) (T : List FactRow) (f : FactRow), f ∈ ps →
      f.event_id ∈ (ps.foldl upsertFactRow T).map FactRow.event_id
  | [], _, _, h => absurd h (List.not_mem_nil _)
  | g :: ps, T, f, hf => by
    rw [List.foldl_cons]
    rcases List.mem_cons.mp hf with rfl | hf'
    · exact foldl_upsertFactRow_key_mono ps _ f.event_id
        (upsertFactRow_key_step T f f.event_id (Or.inr rfl))
    · exact foldl_upsertFactRow_covers ps _ f hf'

/-- After the two dimension upserts, the foreign-key lookup of every batch
row's event succeeds. -/
theorem lookups_resolve (db : DB) (cleaned : List OutRow) :
    ∀ r ∈ cleaned, ∃ i,
      List.lookup r.event
        (event_type_id_map
          (upsert_dim_dates (upsert_dim_event_types db cleaned) cleaned))
        = some i := by
  intro r hr
  obtain ⟨i, hi⟩ := @upsert_dim_event_types_covers db cleaned r hr
  rw [event_type_id_map, dates_preserve_dim_event_types]
  have : r.event ∈ ((upsert_dim_event_types db cleaned).dim_event_types).map Prod.fst :=
    List.mem_map.mpr ⟨(r.event, i), hi, rfl⟩
  exact lookup_some_of_mem_keys this

/-- Shared success-and-integrity lemma for the fact upsert: on any batch
the foreign-key lookup never fails, the call returns `ok` with the batch
length, and every fact row keyed by a batch `event_id` carries an
`event_type_id` present in the event-type dimension. -/
theorem upsert_fact_events_spec (db : DB) (cleaned : List OutRow)
    (h : cleaned ≠ []) :
    ∃ db' n, upsert_fact_events db cleaned = .ok (db', n) ∧
      n = cleaned.length ∧
      (∀ f ∈ db'.fact_events,
        f.event_id ∈ cleaned.map (fun r => pyStr r.event_id "nan") →
        ∃ e, (e, f.event_type_id) ∈ db'.dim_event_types) ∧
      (∀ r ∈ cleaned,
        pyStr r.event_id "nan" ∈ db'.fact_events.map FactRow.event_id) ∧
      (∀ f ∈ db'.fact_events,
        f ∈ db.fact_events ∨ ∃ r ∈ cleaned, ∃ i, f = mkFact r i) := by
  obtain ⟨ps, hps, hlen, hmem, hids⟩ := buildPayload_ok (lookups_resolve db cleaned)
  set db2 := upsert_dim_dates (upsert_dim_event_types db cleaned) cleaned with hdb2
  refine ⟨{ db2 with fact_events := ps.foldl upsertFactRow db2.fact_events },
    ps.length, ?_, hlen, ?_, ?_, ?_⟩
  · rw [upsert_fact_events, if_neg h]
    simp only
    rw [← hdb2, hps]
  · intro f hf hfid
    rcases foldl_upsertFactRow_cases ps db2.fact_events f hf with ⟨_, hnot⟩ | hin
    · exact absurd (hids ▸ hfid) hnot
    · obtain ⟨r, _, i, hi, rfl⟩ := hmem f hin
      exact ⟨r.event, lookup_mem hi⟩
  · intro r hr
    have hkey : pyStr r.event_id "nan" ∈ ps.map FactRow.event_id := by
      rw [hids]
      exact List.mem_map_of_mem _ hr
    obtain ⟨f, hfps, hfid⟩ := List.mem_map.mp hkey
    exact hfid ▸ foldl_upsertFactRow_covers ps db2.fact_events f hfps
  · intro f hf
    rcases foldl_upsertFactRow_cases ps db2.fact_events f hf with ⟨hold, _⟩ | hin
    · left
      have : db2.fact_events = db.fact_events := by
        rw [hdb2]
        exact dims_preserve_fact_events db cleaned
      rwa [this] at hold
    · right
      obtain ⟨r, hr, i, _, rfl⟩ := hmem f hin
      exact ⟨r, hr, i, rfl⟩

/-- C1: on a non-empty cleaned batch `upsert_fact_events` succeeds (the
fatal `int()` branch for an unresolvable foreign key is never reached)
and every fact row carrying a batch `event_id` has an `event_type_id`
that exists in the event-type dimension. -/
theorem upsert_fact_events_referential_integrity (db : DB)
    (cleaned : List OutRow) (h : cleaned ≠ []) :
    ∃ db' n, upsert_fact_events db cleaned = .ok (db', n) ∧
      n = cleaned.length ∧
      ∀ f ∈ db'.fact_events,
        f.event_id ∈ cleaned.map (fun r => pyStr r.event_id "nan") →
        ∃ e, (e, f.event_type_id) ∈ db'.dim_event_types := by
  obtain ⟨db', n, hok, hn, hint, _, _⟩ := upsert_fact_events_spec db cleaned h
  exact ⟨db', n, hok, hn, hint⟩

/-- Witness for C1 at a concrete one-row batch on a fresh warehouse. -/
theorem upsert_fact_events_referential_integrity_witness :
    ∃ db' n, upsert_fact_events emptyDB
        [⟨some "e1", 3600, some "1", "signup", none, none, "1970-01-01", 1,
          some "US", some "x"⟩] = .ok (db', n) ∧
      n = 1 ∧
      ∀ f ∈ db'.fact_events,
        f.event_id ∈ ([⟨some "e1", 3600, some "1", "signup", none, none,
            "1970-01-01", 1, some "US", some "x"⟩] : List OutRow).map
          (fun r => pyStr r.event_id "nan") →
        ∃ e, (e, f.event_type_id) ∈ db'.dim_event_types :=
  upsert_fact_events_referential_integrity emptyDB _ (by decide)

/-! ### C2: idempotence of the fact upsert -/

/-- Insert-if-absent is a no-op when every event is already keyed. -/
theorem foldl_insertIgnoreET_noop :
    ∀ (es : List String) (d : DB),
      (∀ e ∈ es, e ∈ d.dim_event_types.map Prod.fst) →
      es.foldl insertIgnoreET d = d
  | [], _, _ => rfl
  | x :: es, d, h => by
    rw [List.foldl_cons]
    have hx : insertIgnoreET d x = d := by
      rw [insertIgnoreET, if_pos (h x (List.mem_cons_self x es))]
    rw [hx]
    exact foldl_insertIgnoreET_noop es d
      (fun e he => h e (List.mem_cons_of_mem x he))

/-- `upsert_dim_event_types` is a no-op when every batch event is already
in the dimension. -/
theorem upsert_dim_event_types_noop (d : DB) (c : List OutRow)
    (h : ∀ r ∈ c, r.event ∈ d.dim_event_types.map Prod.fst) :
    upsert_dim_event_types d c = d := by
  rw [upsert_dim_event_types]
  by_cases hc : c = []
  · rw [if_pos hc]
  · rw [if_neg hc]
    apply foldl_insertIgnoreET_noop
    intro e he
    rw [sortedSetStr, List.mem_insertionSort, List.mem_dedup] at he
    obtain ⟨r, hr, rfl⟩ := List.mem_map.mp he
    exact h r hr

/-- After upserting `f`, every row keyed like `f` equals `f`. -/
theorem upsertFactRow_rows_eq {T : List FactRow} {f row : FactRow}
    (h : row ∈ upsertFactRow T f) (hid : row.event_id = f.event_id) :
    row = f := by
  rw [upsertFactRow] at h
  by_cases hm : f.event_id ∈ T.map FactRow.event_id
  · rw [if_pos hm] at h
    obtain ⟨orig, _, heq⟩ := List.mem_map.mp h
    by_cases ho : orig.event_id = f.event_id
    · rw [if_pos ho] at heq
      exact heq.symm
    · rw [if_neg ho] at heq
      exact absurd (heq ▸ hid) ho
  · rw [if_neg hm] at h
    rcases List.mem_append.mp h with h1 | h1
    · exact absurd (hid ▸ List.mem_map_of_mem FactRow.event_id h1) hm
    · exact List.mem_singleton.mp h1

/-- A row keyed differently from the upserted row was already present. -/
theorem upsertFactRow_mem_of_ne {T : List FactRow} {g row : FactRow}
    (h : row ∈ upsertFactRow T g) (hne : row.event_id ≠ g.event_id) :
    row ∈ T := by
  rw [upsertFactRow] at h
  by_cases hm : g.event_id ∈ T.map FactRow.event_id
  · rw [if_pos hm] at h
    obtain ⟨orig, horig, heq⟩ := List.mem_map.mp h
    by_cases ho : orig.event_id = g.event_id
    · rw [if_pos ho] at heq
      exact absurd (heq ▸ rfl) hne
    · rw [if_neg ho] at heq
      exact heq ▸ horig
  · rw [if_neg hm] at h
    rcases List.mem_append.mp h with h1 | h1
    · exact h1
    · exact absurd (List.mem_singleton.mp h1 ▸ rfl) hne

theorem absorbed_after_upsert (T : List FactRow) (f : FactRow) :
    Absorbed (upsertFactRow T f) f :=
  ⟨upsertFactRow_key_step T f f.event_id (Or.inr rfl),
   fun _ h hid => upsertFactRow_rows_eq h hid⟩

theorem absorbed_preserved (T : List FactRow) {f g : FactRow}
    (hne : g.event_id ≠ f.event_id) (h : Absorbed T f) :
    Absorbed (upsertFactRow T g) f := by
  refine ⟨upsertFactRow_key_step T g f.event_id (Or.inl h.1), ?_⟩
  intro row hrow hid
  exact h.2 row (upsertFactRow_mem_of_ne hrow (by rw [hid]; exact fun hc => hne hc.symm)) hid

theorem absorbed_preserved_foldl :
    ∀ (ps : List FactRow) (T : List FactRow) {f : FactRow},
      (∀ p ∈ ps, p.event_id ≠ f.event_id) → Absorbed T f →
      Absorbed (ps.foldl upsertFactRow T) f
  | [], _, _, _, h => h
  | g :: ps, T, f, hne, h => by
    rw [List.foldl_cons]
    exact absorbed_preserved_foldl ps _
      (fun p hp => hne p (List.mem_cons_of_mem g hp))
      (absorbed_preserved T (hne g (List.mem_cons_self g ps)) h)

/-- With pairwise-distinct payload keys, every payload row is absorbed by
the table the batched upsert produces. -/
theorem foldl_establishes_absorbed :
    ∀ (ps : List FactRow) (T : List FactRow),
      (ps.map FactRow.event_id).Nodup →
      ∀ f ∈ ps, Absorbed (ps.foldl upsertFactRow T) f
  | [], _, _, f, hf => absurd hf (List.not_mem_nil f)
  | g :: ps, T, hnd, f, hf => by
    rw [List.map_cons, List.nodup_cons] at hnd
    rw [List.foldl_cons]
    rcases List.mem_cons.mp hf with rfl | hf'
    · exact absorbed_preserved_foldl ps _
        (fun p hp heq => hnd.1 (heq ▸ List.mem_map_of_mem FactRow.event_id hp))
        (absorbed_after_upsert T f)
    · exact foldl_establishes_absorbed ps _ hnd.2 f hf'

theorem upsertFactRow_absorbed_eq {T : List FactRow} {f : FactRow}
    (h : Absorbed T f) : upsertFactRow T f = T := by
  rw [upsertFactRow, if_pos h.1]
  have heq := List.map_congr_left (l := T)
    (f := fun row => if row.event_id = f.event_id then f else row) (g := id) ?_
  · rw [heq, List.map_id]
  · intro a ha
    show (if a.event_id = f.event_id then f else a) = a
    by_cases hid : a.event_id = f.event_id
    · rw [if_pos hid]
      exact (h.2 a ha hid).symm
    · rw [if_neg hid]

/-- Re-applying an absorbed payload leaves the fact table unchanged. -/
theorem foldl_upsertFactRow_absorbed :
    ∀ (ps : List FactRow) (T : List FactRow),
      (∀ f ∈ ps, Absorbed T f) →
      ps.foldl upsertFactRow T = T
  | [], _, _ => rfl
  | g :: ps, T, h => by
    rw [List.foldl_cons, upsertFactRow_absorbed_eq (h g (List.mem_cons_self g ps))]
    exact foldl_upsertFactRow_absorbed ps T
      (fun f hf => h f (List.mem_cons_of_mem g hf))

/-- C2: applying `upsert_fact_events` a second time with the same cleaned
batch (whose `event_id`s are unique, as the dedup stage guarantees)
returns the same row count and leaves the fact table exactly as after the
first application. -/
theorem upsert_fact_events_idempotent (db db₁ : DB) (cleaned : List OutRow)
    (n : Nat)
    (hnd : (cleaned.map (fun r => pyStr r.event_id "nan")).Nodup)
    (h1 : upsert_fact_events db cleaned = .ok (db₁, n)) :
    ∃ db₂, upsert_fact_events db₁ cleaned = .ok (db₂, n) ∧
      db₂.fact_events = db₁.fact_events := by
  by_cases hc : cleaned = []
  · subst hc
    rw [upsert_fact_events, if_pos rfl] at h1
    cases h1
    exact ⟨db, by rw [upsert_fact_events, if_pos rfl], rfl⟩
  · obtain ⟨ps, hps, hlen, hmem, hids⟩ :=
      buildPayload_ok (lookups_resolve db cleaned)
    rw [upsert_fact_events, if_neg hc] at h1
    simp only [hps] at h1
    cases h1
    set db2 := upsert_dim_dates (upsert_dim_event_types db cleaned) cleaned
      with hdb2
    set T1 := ps.foldl upsertFactRow db2.fact_events with hT1
    set db₁ := { db2 with fact_events := T1 } with hdb₁
    have hndps : (ps.map FactRow.event_id).Nodup := by
      rw [hids]
      exact hnd
    -- the second run's event-type upsert is a no-op
    have hkeys : ∀ r ∈ cleaned, r.event ∈ db₁.dim_event_types.map Prod.fst := by
      intro r hr
      obtain ⟨i, hi⟩ := @upsert_dim_event_types_covers db cleaned r hr
      have : db₁.dim_event_types
          = (upsert_dim_event_types db cleaned).dim_event_types := by
        rw [hdb₁]
        exact dates_preserve_dim_event_types _ _
      rw [this]
      exact List.mem_map.mpr ⟨(r.event, i), hi, rfl⟩
    have hnoop : upsert_dim_event_types db₁ cleaned = db₁ :=
      upsert_dim_event_types_noop db₁ cleaned hkeys
    set db2' := upsert_dim_dates db₁ cleaned with hdb2'
    have hdim2' : db2'.dim_event_types = db2.dim_event_types := by
      rw [hdb2']
      rw [dates_preserve_dim_event_types]
    have hfact2' : db2'.fact_events = T1 := by
      rw [hdb2']
      rw [upsert_dim_dates_fact_events]
    have hps2 : buildPayload (event_type_id_map db2') cleaned = .ok ps := by
      rw [event_type_id_map, hdim2']
      exact hps
    have habs : ∀ f ∈ ps, Absorbed T1 f := by
      intro f hf
      rw [hT1]
      exact foldl_establishes_absorbed ps db2.fact_events hndps f hf
    refine ⟨{ db2' with fact_events := ps.foldl upsertFactRow db2'.fact_events },
      ?_, ?_⟩
    · rw [upsert_fact_events, if_neg hc]
      simp only [hnoop, ← hdb2', hps2, hlen]
    · simp only
      rw [hfact2']
      rw [foldl_upsertFactRow_absorbed ps T1 habs]

/-- Witness for C2 at a concrete one-row batch on a fresh warehouse. -/
theorem upsert_fact_events_idempotent_witness :
    ∃ db₁ n, upsert_fact_events emptyDB
        [⟨some "e1", 3600, some "1", "signup", none, none, "1970-01-01", 1,
          some "US", some "x"⟩] = .ok (db₁, n) ∧
      ∃ db₂, upsert_fact_events db₁
          [⟨some "e1", 3600, some "1", "signup", none, none, "1970-01-01", 1,
            some "US", some "x"⟩] = .ok (db₂, n) ∧
        db₂.fact_events = db₁.fact_events := by
  obtain ⟨db₁, n, hok, _, _, _, _⟩ := upsert_fact_events_spec emptyDB
    [⟨some "e1", 3600, some "1", "signup", none, none, "1970-01-01", 1,
      some "US", some "x"⟩] (by decide)
  exact ⟨db₁, n, hok,
    upsert_fact_events_idempotent emptyDB db₁ _ n (by decide) hok⟩

/-! ### C6: null user_id handling in the user-dimension upsert -/

/-- C6 (evaluating the code at the failing input): a row whose `user_id`
is missing is NOT excluded from the user dimension — `astype(str)` runs
before the `pd.notna` filter, so the null stringifies to `"<NA>"`, passes
both filter conditions, and is upserted as a real user row. -/
theorem upsert_dim_users_inserts_null :
    (upsert_dim_users emptyDB [⟨none, some "US", some "ads"⟩]).1.dim_users
      = [("<NA>", "US", "ads")] ∧
    (upsert_dim_users emptyDB [⟨none, some "US", some "ads"⟩]).2 = 1 := by
  decide

/-! ### C7: disposition of every input record of a run -/

/-- C7, counterexample as stated: in a run over two well-formed records
sharing `event_id` `"e1"`, the earlier record is removed by
deduplication — it is neither loaded as a fact row nor quarantined, so
"exactly one of loaded/quarantined" fails. -/
theorem record_disposition_counterexample :
    (transform
        [⟨some "e1", 1, some "1", "signup", none, none⟩,
         ⟨some "e1", 2, some "1", "signup", none, none⟩]
        [⟨"1", some "US", some "x"⟩]).2.1 = [] ∧
    ¬ recordLoaded
        (mainLoadFacts
          [⟨some "e1", 1, some "1", "signup", none, none⟩,
           ⟨some "e1", 2, some "1", "signup", none, none⟩]
          [⟨"1", some "US", some "x"⟩])
        ⟨some "e1", 1, some "1", "signup", none, none⟩ := by
  decide

/-- Surviving rows of `keepLastBy` carry pairwise-distinct keys. -/
theorem keepLastBy_keys_nodup :
    ∀ l : List EventIn, ((keepLastBy l).map EventIn.event_id).Nodup
  | [] => List.nodup_nil
  | x :: l => by
    rw [keepLastBy]
    by_cases hc : (l.map EventIn.event_id).contains x.event_id
    · rw [if_pos hc]
      exact keepLastBy_keys_nodup l
    · rw [if_neg hc, List.map_cons, List.nodup_cons]
      refine ⟨?_, keepLastBy_keys_nodup l⟩
      intro hmem
      apply hc
      obtain ⟨y, hy, hyk⟩ := List.mem_map.mp hmem
      rw [List.contains, List.elem_eq_mem, decide_eq_true_eq]
      rw [← hyk]
      exact List.mem_map_of_mem EventIn.event_id (keepLastBy_subset hy)

theorem dedupLatest_keys_nodup (rs : List EventIn) :
    ((dedupLatest rs).map EventIn.event_id).Nodup :=
  keepLastBy_keys_nodup _

/-- Canonicalization only rewrites the `event` text: each canonical row
keeps some input row's `event_id` and `ts`. -/
theorem canonStage_src {events : List EventIn} {x : EventIn}
    (h : x ∈ canonStage events) :
    ∃ e ∈ events, x.event_id = e.event_id ∧ x.ts = e.ts := by
  obtain ⟨e, he, rfl⟩ := List.mem_map.mp h
  exact ⟨e, he, rfl, rfl⟩

/-- The (stringified event_id, ts) content of the canonical rows is the
content of the input rows. -/
theorem canonStage_pairs (events : List EventIn) :
    (canonStage events).map (fun x => (pyStr x.event_id "nan", x.ts)) =
      events.map (fun x => (pyStr x.event_id "nan", x.ts)) := by
  rw [canonStage, List.map_map]
  exact List.map_congr_left (fun e _ => rfl)

/-- Every fact row loaded by the run carries the stringified `event_id`
and `ts` of some record surviving deduplication. -/
theorem fact_origin (events : List EventIn) (users : List UserIn) :
    ∀ f ∈ mainLoadFacts events users,
      ∃ d ∈ dedupLatest (validRows (canonStage events)),
        f.event_id = pyStr d.event_id "nan" ∧ f.ts = strOfTs d.ts := by
  intro f hf
  by_cases hout : (transform events users).1 = []
  · rw [mainLoadFacts, hout] at hf
    rw [show upsert_fact_events emptyDB [] = Except.ok (emptyDB, 0) from by
      rw [upsert_fact_events, if_pos rfl]] at hf
    exact absurd hf (List.not_mem_nil f)
  · have hev : events ≠ [] := by
      intro h0
      apply hout
      rw [h0, transform]
      rfl
    have htr : (transform events users).1 =
        mergeLeft (typedRows (dedupLatest (validRows (canonStage events))))
          (normUsers users) := by
      rw [transform, if_neg hev]
    obtain ⟨db', n, hok, _, _, _, horigin⟩ :=
      upsert_fact_events_spec emptyDB _ hout
    rw [mainLoadFacts, hok] at hf
    rcases horigin f hf with hold | ⟨o, ho, i, rfl⟩
    · exact absurd hold (List.not_mem_nil f)
    · rw [htr] at ho
      obtain ⟨x, hx, _, hxid, hxts⟩ := mergeLeft_mem ho
      obtain ⟨d, hd, _, hdid, hdts⟩ := typedRows_mem hx
      refine ⟨d, hd, ?_, ?_⟩
      · show pyStr o.event_id "nan" = pyStr d.event_id "nan"
        rw [hxid, hdid]
      · show strOfTs o.ts = strOfTs d.ts
        rw [hxts, hdts]

/-- Under pairwise-distinct (stringified event_id, ts) content, a record
whose content is in the fact table survived deduplication. -/
theorem recordLoaded_mem_dedup (events : List EventIn) (users : List UserIn)
    (hpairs : (events.map (fun x => (pyStr x.event_id "nan", x.ts))).Nodup)
    {r : EventIn} (hr : r ∈ canonStage events)
    (hload : recordLoaded (mainLoadFacts events users) r) :
    r ∈ dedupLatest (validRows (canonStage events)) := by
  obtain ⟨f, hf, hfid, hfts⟩ := hload
  obtain ⟨d, hd, hdid, hdts⟩ := fact_origin events users f hf
  have h2 : d.ts = r.ts := strOfTs_injective (by rw [← hdts, hfts])
  have hdc : d ∈ canonStage events :=
    List.mem_of_mem_filter (dedupLatest_subset hd)
  have hnodc :
      ((canonStage events).map (fun x => (pyStr x.event_id "nan", x.ts))).Nodup := by
    rw [canonStage_pairs]
    exact hpairs
  have hdr : d = r :=
    List.inj_on_of_nodup_map hnodc hdc hr (by rw [← hdid, hfid, h2])
  rwa [← hdr]

/-- Under non-conflating id stringification, every record surviving
deduplication is loaded: a fact row carries its `event_id` and `ts`. -/
theorem dedup_record_loaded (events : List EventIn) (users : List UserIn)
    (hids : ∀ a ∈ events, ∀ b ∈ events,
      pyStr a.event_id "nan" = pyStr b.event_id "nan" → a.event_id = b.event_id)
    {r : EventIn} (hded : r ∈ dedupLatest (validRows (canonStage events))) :
    recordLoaded (mainLoadFacts events users) r := by
  have hrc : r ∈ canonStage events :=
    List.mem_of_mem_filter (dedupLatest_subset hded)
  have hev : events ≠ [] := by
    intro h0
    rw [h0] at hrc
    exact absurd hrc (List.not_mem_nil r)
  have htr : (transform events users).1 =
      mergeLeft (typedRows (dedupLatest (validRows (canonStage events))))
        (normUsers users) := by
    rw [transform, if_neg hev]
  obtain ⟨x, hx, hxid, hxts⟩ := typedRows_exists hded
  obtain ⟨o, ho, hoid, hots⟩ := @mergeLeft_exists _ (normUsers users) _ hx
  have hoout : o ∈ (transform events users).1 := by
    rw [htr]
    exact ho
  have houtne : (transform events users).1 ≠ [] := List.ne_nil_of_mem hoout
  obtain ⟨db', n, hok, _, _, hcov, _⟩ :=
    upsert_fact_events_spec emptyDB _ houtne
  have hfacts : mainLoadFacts events users = db'.fact_events := by
    rw [mainLoadFacts, hok]
  obtain ⟨f, hf, hfid⟩ := List.mem_map.mp (hcov o hoout)
  have hfm : f ∈ mainLoadFacts events users := by
    rw [hfacts]
    exact hf
  obtain ⟨d, hd, hdid, hdts⟩ := fact_origin events users f hfm
  have hor : o.event_id = r.event_id := by rw [hoid, hxid]
  have hkeys : pyStr d.event_id "nan" = pyStr r.event_id "nan" := by
    rw [← hdid, hfid, hor]
  have hdc : d ∈ canonStage events :=
    List.mem_of_mem_filter (dedupLatest_subset hd)
  have hidc : d.event_id = r.event_id := by
    obtain ⟨e, he, hei, _⟩ := canonStage_src hdc
    obtain ⟨e2, he2, hei2, _⟩ := canonStage_src hrc
    rw [hei, hei2] at hkeys ⊢
    exact hids e he e2 he2 hkeys
  have hdr : d = r :=
    List.inj_on_of_nodup_map (dedupLatest_keys_nodup _) hd hded hidc
  refine ⟨f, hfm, ?_, ?_⟩
  · rw [hfid, hor]
  · rw [hdts, hdr]

/-- C7 (amended): with records identified by their (event_id, ts) content
— no two records share both the stringified `event_id` and the timestamp,
and stringification does not conflate distinct ids (e.g. no null id next
to a literal `"nan"` id) — every input record of a run lands in exactly
one of three states: quarantined with reason `invalid_event_type` and
absent from the fact table, loaded as a fact row, or removed by
deduplication in favor of a surviving record with the same `event_id`
and a later-or-equal timestamp, absent from both the fact table and the
quarantine. -/
theorem record_disposition (events : List EventIn) (users : List UserIn)
    (h : events ≠ []) :
    (transform events users).2.1 =
      (invalidRows (canonStage events)).map mkBadInvalid ∧
    ∀ r ∈ canonStage events,
      (r.event ∉ ALLOWED_EVENTS →
        mkBadInvalid r ∈ (transform events users).2.1) ∧
      (r.event ∈ ALLOWED_EVENTS →
        mkBadInvalid r ∉ (transform events users).2.1) ∧
      ((∀ a ∈ events, ∀ b ∈ events,
          pyStr a.event_id "nan" = pyStr b.event_id "nan" →
          a.event_id = b.event_id) →
        (events.map (fun x => (pyStr x.event_id "nan", x.ts))).Nodup →
        (r.event ∉ ALLOWED_EVENTS →
          ¬ recordLoaded (mainLoadFacts events users) r) ∧
        (r.event ∈ ALLOWED_EVENTS →
          r ∈ dedupLatest (validRows (canonStage events)) →
          recordLoaded (mainLoadFacts events users) r) ∧
        (r.event ∈ ALLOWED_EVENTS →
          r ∉ dedupLatest (validRows (canonStage events)) →
          (∃ s ∈ dedupLatest (validRows (canonStage events)),
            s.event_id = r.event_id ∧ r.ts ≤ s.ts) ∧
          ¬ recordLoaded (mainLoadFacts events users) r)) := by
  have hallow : ∀ e : EventIn, allowedB e = true ↔ e.event ∈ ALLOWED_EVENTS := by
    intro e
    rw [allowedB, List.contains, List.elem_eq_mem, decide_eq_true_eq]
  have hbadeq : (transform events users).2.1 =
      (invalidRows (canonStage events)).map mkBadInvalid := by
    rw [transform, if_neg h]
  refine ⟨hbadeq, ?_⟩
  intro r hr
  refine ⟨?_, ?_, ?_⟩
  · intro hout
    rw [hbadeq]
    apply List.mem_map_of_mem
    rw [invalidRows, List.mem_filter]
    refine ⟨hr, ?_⟩
    rw [Bool.not_eq_true']
    rw [← Bool.not_eq_true, hallow]
    exact hout
  · intro hin hmem
    rw [hbadeq] at hmem
    obtain ⟨e, he, heq⟩ := List.mem_map.mp hmem
    have hev : e.event = r.event := by
      have := congrArg BadEvent.event heq
      simpa [mkBadInvalid] using this
    have : allowedB e = false := by
      have := List.of_mem_filter (p := fun e => !allowedB e) he
      rwa [Bool.not_eq_true'] at this
    rw [← Bool.not_eq_true, hallow, hev] at this
    exact this hin
  · intro hids hpairs
    refine ⟨?_, ?_, ?_⟩
    · intro hout hload
      have hded := recordLoaded_mem_dedup events users hpairs hr hload
      have hval := dedupLatest_subset hded
      have := List.of_mem_filter hval
      exact hout ((hallow r).mp this)
    · intro _ hded
      exact dedup_record_loaded events users hids hded
    · intro hin hnot
      constructor
      · have hval : r ∈ validRows (canonStage events) := by
          rw [validRows, List.mem_filter]
          refine ⟨hr, ?_⟩
          rw [hallow]
          exact hin
        have hk : r.event_id ∈ (validRows (canonStage events)).map EventIn.event_id :=
          List.mem_map_of_mem EventIn.event_id hval
        obtain ⟨a, hfil, _, haid, hamax⟩ :=
          dedup_group_spec (validRows (canonStage events)) r.event_id hk
        have hamem : a ∈ dedupLatest (validRows (canonStage events)) := by
          have : a ∈ (dedupLatest (validRows (canonStage events))).filter
              (fun x => x.event_id = r.event_id) := by
            rw [hfil]
            exact List.mem_singleton.mpr rfl
          exact List.mem_of_mem_filter this
        exact ⟨a, hamem, haid, hamax r hval rfl⟩
      · intro hload
        exact hnot (recordLoaded_mem_dedup events users hpairs hr hload)

/-- Witness for C7 (amended) at the counterexample input: all hypotheses
discharged concretely — the later duplicate is loaded, the earlier one is
removed with a later-or-equal survivor and is in neither the fact table
nor the quarantine. -/
theorem record_disposition_witness :
    recordLoaded
      (mainLoadFacts
        [⟨some "e1", 1, some "1", "signup", none, none⟩,
         ⟨some "e1", 2, some "1", "signup", none, none⟩]
        [⟨"1", some "US", some "x"⟩])
      ⟨some "e1", 2, some "1", "signup", none, none⟩ ∧
    (∃ s ∈ dedupLatest (validRows (canonStage
        [⟨some "e1", 1, some "1", "signup", none, none⟩,
         ⟨some "e1", 2, some "1", "signup", none, none⟩])),
      s.event_id = some "e1" ∧ (1 : Int) ≤ s.ts) ∧
    ¬ recordLoaded
      (mainLoadFacts
        [⟨some "e1", 1, some "1", "signup", none, none⟩,
         ⟨some "e1", 2, some "1", "signup", none, none⟩]
        [⟨"1", some "US", some "x"⟩])
      ⟨some "e1", 1, some "1", "signup", none, none⟩ ∧
    mkBadInvalid ⟨some "e1", 1, some "1", "signup", none, none⟩ ∉
      (transform
        [⟨some "e1", 1, some "1", "signup", none, none⟩,
         ⟨some "e1", 2, some "1", "signup", none, none⟩]
        [⟨"1", some "US", some "x"⟩]).2.1 := by
  have H := record_disposition
    [⟨some "e1", 1, some "1", "signup", none, none⟩,
     ⟨some "e1", 2, some "1", "signup", none, none⟩]
    [⟨"1", some "US", some "x"⟩] (by decide)
  have H2 := H.2 ⟨some "e1", 2, some "1", "signup", none, none⟩ (by decide)
  have H1 := H.2 ⟨some "e1", 1, some "1", "signup", none, none⟩ (by decide)
  have h2c := H2.2.2 (by decide) (by decide)
  have h1c := H1.2.2 (by decide) (by decide)
  have hrem := h1c.2.2 (by decide) (by decide)
  exact ⟨h2c.2.1 (by decide) (by decide), hrem.1, hrem.2,
    H1.2.1 (by decide)⟩

/-- C8: `rejected_total = ingest_bad + transform_invalid_event_type`, and
`reject_rate = rejected_total / raw_lines`, defined as `0` when
`raw_lines = 0`. -/
theorem quality_report_metrics (q : QualityReport) :
    rejected_total q = q.ingest_bad + q.transform_invalid_event_type ∧
    (q.raw_lines = 0 → reject_rate q = 0) ∧
    (q.raw_lines ≠ 0 →
      reject_rate q = (rejected_total q : ℚ) / (q.raw_lines : ℚ)) := by
  refine ⟨rfl, ?_, ?_⟩
  · intro hz
    rw [reject_rate]
    simp [hz]
  · intro hnz
    rw [reject_rate]
    simp [hnz]

/-- Witness for C8 at concrete reports with zero and non-zero raw lines. -/
theorem quality_report_metrics_witness :
    rejected_total ⟨"t", 4, 1, 2, 1, 1, 0, 0⟩ = 3 ∧
    reject_rate ⟨"t", 4, 1, 2, 1, 1, 0, 0⟩ = 3 / 4 ∧
    reject_rate ⟨"t", 0, 0, 2, 1, 0, 0, 0⟩ = 0 := by
  have h1 := quality_report_metrics ⟨"t", 4, 1, 2, 1, 1, 0, 0⟩
  have h2 := quality_report_metrics ⟨"t", 0, 0, 2, 1, 0, 0, 0⟩
  refine ⟨h1.1, ?_, h2.2.1 rfl⟩
  rw [h1.2.2 (by decide)]
  norm_num [rejected_total]

/-! ### C9/C10: ingest behavior -/

/-- The good component of a processed line does not depend on the line
number. -/
theorem goodPart_processLine (jsonLoads : String → JObj ⊕ String)
    (toDT : Option JVal → Option Int) (i : Nat) (raw : String) :
    goodPart (processLine jsonLoads toDT i raw) = goodOf jsonLoads toDT raw := by
  rw [goodOf]
  simp only [processLine]
  by_cases hb : pyStrip raw = ""
  · rw [if_pos hb, if_pos hb]
  · rw [if_neg hb, if_neg hb]
    cases jsonLoads (pyStrip raw) with
    | inr msg => rfl
    | inl obj =>
      dsimp only
      by_cases hm : missingFields obj = []
      · rw [if_pos hm, if_pos hm]
        cases toDT (lookupKey obj "ts") with
        | none => rfl
        | some t => rfl
      · rw [if_neg hm, if_neg hm]
        rfl

/-- The good stream of the ingest loop is position-independent: it is a
plain `filterMap` over the raw lines. -/
theorem filterMap_good_enumFrom (jsonLoads : String → JObj ⊕ String)
    (toDT : Option JVal → Option Int) :
    ∀ (k : Nat) (lines : List String),
      (List.enumFrom k lines).filterMap
          (fun p => goodPart (processLine jsonLoads toDT p.1 p.2)) =
        lines.filterMap (goodOf jsonLoads toDT)
  | _, [] => rfl
  | k, x :: lines => by
    cases hx : goodOf jsonLoads toDT x with
    | none =>
      rw [List.enumFrom_cons,
        List.filterMap_cons_none (by rw [goodPart_processLine]; exact hx),
        List.filterMap_cons_none hx,
        filterMap_good_enumFrom jsonLoads toDT (k + 1) lines]
    | some o =>
      rw [List.enumFrom_cons,
        List.filterMap_cons_some (by rw [goodPart_processLine]; exact hx),
        List.filterMap_cons_some hx,
        filterMap_good_enumFrom jsonLoads toDT (k + 1) lines]

theorem mem_enumFrom_of_getElem? :
    ∀ {lines : List String} {i : Nat} {line : String} (k : Nat),
      lines[i]? = some line → (k + i, line) ∈ List.enumFrom k lines := by
  intro lines
  induction lines with
  | nil =>
    intro i line k h
    rw [List.getElem?_nil] at h
    cases h
  | cons x ls ih =>
    intro i line k h
    cases i with
    | zero =>
      rw [List.getElem?_cons_zero] at h
      cases h
      rw [List.enumFrom_cons]
      exact List.mem_cons_self _ _
    | succ i' =>
      rw [List.getElem?_cons_succ] at h
      rw [List.enumFrom_cons]
      apply List.mem_cons_of_mem
      have h2 := ih (k := k + 1) h
      rw [show k + (i' + 1) = (k + 1) + i' by omega]
      exact h2

/-- Processing a non-blank, decodable, field-complete line whose `ts`
does not coerce yields exactly the `invalid_timestamp` quarantine entry. -/
theorem processLine_invalid_ts (jsonLoads : String → JObj ⊕ String)
    (toDT : Option JVal → Option Int) (i : Nat) (line : String) (obj : JObj)
    (hb : pyStrip line ≠ "") (hj : jsonLoads (pyStrip line) = .inl obj)
    (hm : missingFields obj = []) (ht : toDT (lookupKey obj "ts") = none) :
    processLine jsonLoads toDT i line =
      some (.inr ⟨some obj, none, i, "invalid_timestamp"⟩) := by
  simp only [processLine, if_neg hb, hj, if_pos hm, ht]

/-- Processing a non-blank, decodable, field-complete line whose `ts`
coerces yields the record with `ts` replaced by the parsed timestamp. -/
theorem processLine_good (jsonLoads : String → JObj ⊕ String)
    (toDT : Option JVal → Option Int) (i : Nat) (line : String) (obj : JObj)
    (t : Int)
    (hb : pyStrip line ≠ "") (hj : jsonLoads (pyStrip line) = .inl obj)
    (hm : missingFields obj = []) (ht : toDT (lookupKey obj "ts") = some t) :
    processLine jsonLoads toDT i line =
      some (.inl (setKey obj "ts" (JVal.jts t))) := by
  simp only [processLine, if_neg hb, hj, if_pos hm, ht]

/-- C9: a non-blank line that decodes and has all required fields is
quarantined with reason exactly `"invalid_timestamp"` (and its 1-based
line number) when its `ts` does not coerce, contributing nothing to the
good records (which are exactly the per-line good contributions); when
`ts` coerces, the record is emitted as good with `ts` replaced by the
parsed timestamp. -/
theorem ingest_invalid_timestamp (jsonLoads : String → JObj ⊕ String)
    (toDT : Option JVal → Option Int) (lines : List String) (i : Nat)
    (line : String) (obj : JObj)
    (hline : lines[i]? = some line)
    (hb : pyStrip line ≠ "")
    (hj : jsonLoads (pyStrip line) = .inl obj)
    (hm : missingFields obj = []) :
    ∃ res, read_events_jsonl jsonLoads toDT lines = .ok res ∧
      res.events = lines.filterMap (goodOf jsonLoads toDT) ∧
      (toDT (lookupKey obj "ts") = none →
        (⟨some obj, none, i + 1, "invalid_timestamp"⟩ : BadIngest)
            ∈ res.bad_records ∧
        goodOf jsonLoads toDT line = none) ∧
      (∀ t, toDT (lookupKey obj "ts") = some t →
        setKey obj "ts" (JVal.jts t) ∈ res.events) := by
  match lines, hline with
  | x :: rest, hline =>
    have hmem : (1 + i, line) ∈ List.enumFrom 1 (x :: rest) :=
      mem_enumFrom_of_getElem? 1 hline
    refine ⟨⟨(List.enumFrom 1 (x :: rest)).filterMap
        (fun p => goodPart (processLine jsonLoads toDT (Prod.fst p) (Prod.snd p))),
      (List.enumFrom 1 (x :: rest)).filterMap
        (fun p => badPart (processLine jsonLoads toDT (Prod.fst p) (Prod.snd p)))⟩,
      ?_, ?_, ?_, ?_⟩
    · rfl
    · exact filterMap_good_enumFrom jsonLoads toDT 1 (x :: rest)
    · intro ht
      constructor
      · apply List.mem_filterMap.mpr
        refine ⟨(1 + i, line), hmem, ?_⟩
        rw [processLine_invalid_ts jsonLoads toDT (1 + i) line obj hb hj hm ht]
        rw [show 1 + i = i + 1 by omega]
        rfl
      · rw [goodOf, processLine_invalid_ts jsonLoads toDT 0 line obj hb hj hm ht]
        rfl
    · intro t ht
      apply List.mem_filterMap.mpr
      refine ⟨(1 + i, line), hmem, ?_⟩
      rw [processLine_good jsonLoads toDT (1 + i) line obj t hb hj hm ht]
      rfl

/-- Witness for C9: of two decoded lines, the one with the unparsable
`ts` lands in quarantine at its line number with reason
`invalid_timestamp` and outside the good records; the other is emitted
with its parsed timestamp. -/
theorem ingest_invalid_timestamp_witness :
    ∃ res, read_events_jsonl witJson witTs ["L1", "L2"] = .ok res ∧
      res.events = ["L1", "L2"].filterMap (goodOf witJson witTs) ∧
      (witTs (lookupKey [("event_id", JVal.jstr "e2"),
          ("ts", JVal.jstr "BAD_TIME"), ("event", JVal.jstr "signup")] "ts")
          = none →
        (⟨some [("event_id", JVal.jstr "e2"), ("ts", JVal.jstr "BAD_TIME"),
            ("event", JVal.jstr "signup")], none, 2,
          "invalid_timestamp"⟩ : BadIngest) ∈ res.bad_records ∧
        goodOf witJson witTs "L2" = none) ∧
      (∀ t, witTs (lookupKey [("event_id", JVal.jstr "e2"),
          ("ts", JVal.jstr "BAD_TIME"), ("event", JVal.jstr "signup")] "ts")
          = some t →
        setKey [("event_id", JVal.jstr "e2"), ("ts", JVal.jstr "BAD_TIME"),
          ("event", JVal.jstr "signup")] "ts" (JVal.jts t) ∈ res.events) :=
  ingest_invalid_timestamp witJson witTs ["L1", "L2"] 1 "L2"
    [("event_id", JVal.jstr "e2"), ("ts", JVal.jstr "BAD_TIME"),
      ("event", JVal.jstr "signup")]
    (by decide) (by decide) (by decide) (by decide)

/-- C10: `read_events_jsonl` requires at least one input line — on an
empty file the post-loop logging statement references the never-bound
loop variable and the call raises instead of returning an empty
`IngestResult`; on any non-empty file it returns normally. -/
theorem read_events_jsonl_needs_a_line (jsonLoads : String → JObj ⊕ String)
    (toDT : Option JVal → Option Int) :
    read_events_jsonl jsonLoads toDT [] = .error "NameError: i is not defined" ∧
    ∀ lines : List String, lines ≠ [] →
      ∃ res, read_events_jsonl jsonLoads toDT lines = .ok res := by
  refine ⟨rfl, ?_⟩
  intro lines hne
  match lines with
  | [] => exact absurd rfl hne
  | x :: rest => exact ⟨_, rfl⟩

/-- Witness for C10 at a concrete one-line file. -/
theorem read_events_jsonl_needs_a_line_witness :
    read_events_jsonl witJson witTs []
        = .error "NameError: i is not defined" ∧
    ∃ res, read_events_jsonl witJson witTs ["L1"] = .ok res :=
  ⟨(read_events_jsonl_needs_a_line witJson witTs).1,
   (read_events_jsonl_needs_a_line witJson witTs).2 ["L1"] (by decide)⟩

end ETL

